import Mathlib

/-!
# config-replacer: flattening and substitution

A shallow embedding of `replacer.go`:

* `convertMapTo1DMap` (lines 77-114), the flattener of a nested configuration;
* `convertTypeToString` (lines 140-156) and `replaceVarsByValues` (lines 157-181),
  the substitution engine;
* the name of the output file computed by `replaceFile` (lines 204-206).

Go strings are modelled by the list of their characters (`Str`); a Go
`map[string]interface{}` is modelled by an association list (`GoMap`) together with an
explicit visiting order for every `range` statement (`RangeOrder`), because Go leaves the
iteration order of a map unspecified.
-/

set_option autoImplicit false

namespace ConfigReplacer

/-! ## Data model -/

/-- A Go string, as the list of its characters. -/
abbrev Str := List Char

/-- The dynamic values held in an `interface{}` after `convertYamlToMap`:
`nil`, `bool`, `int`, `float32`, `float64`, `string`, `[]interface{}` and
`map[string]interface{}`.  A float is represented by its bit pattern. -/
inductive Value where
  | null
  | bool (b : Bool)
  | int (n : Int)
  | float32 (bits : Nat)
  | float64 (bits : Nat)
  | str (s : Str)
  | seq (items : List Value)
  | map (entries : List (Str × Value))

instance : Inhabited Value := ⟨Value.null⟩

/-- A Go `map[string]interface{}`: its entries, one per key. -/
abbrev GoMap := List (Str × Value)

/-- The result of `reflect.ValueOf(v).Kind()` on the values of the data model. -/
inductive Kind where
  | invalid
  | bool
  | int
  | float32
  | float64
  | string
  | slice
  | map
  deriving DecidableEq, Repr

/-- The reflected kind: `reflect.ValueOf(v).Kind()`. -/
def Value.kind : Value → Kind
  | .null => .invalid
  | .bool _ => .bool
  | .int _ => .int
  | .float32 _ => .float32
  | .float64 _ => .float64
  | .str _ => .string
  | .seq _ => .slice
  | .map _ => .map

/-- Scalars of the specification: Boolean, Integer, Float and String. -/
def Value.isScalar : Value → Bool
  | .bool _ => true
  | .int _ => true
  | .float32 _ => true
  | .float64 _ => true
  | .str _ => true
  | _ => false

/-- Map assignment `m[k] = v`: overwrite the entry of `k` when there is one, add it otherwise. -/
def GoMap.set : GoMap → Str → Value → GoMap
  | [], k, v => [(k, v)]
  | (k', v') :: rest, k, v =>
    if k' = k then (k, v) :: rest else (k', v') :: GoMap.set rest k v

/-- Map lookup `v, ok := m[k]`. -/
def GoMap.get : GoMap → Str → Option Value
  | [], _ => none
  | (k', v') :: rest, k => if k' = k then some v' else GoMap.get rest k

/-- The order in which a `range` statement visits the entries of a map.  Go leaves it
unspecified: any rearrangement of the entries may be visited. -/
structure RangeOrder where
  order : GoMap → GoMap
  perm : ∀ m : GoMap, (order m).Perm m

/-- The visiting order that follows the listing of the entries. -/
def RangeOrder.listed : RangeOrder := ⟨fun m => m, fun m => List.Perm.refl m⟩

/-- The visiting order that follows the listing of the entries backwards. -/
def RangeOrder.backwards : RangeOrder := ⟨fun m => m.reverse, fun m => List.reverse_perm m⟩

/-! ## The flattener: `convertMapTo1DMap` -/

/-- The dotted key `k + "." + k1`. -/
def dotted (k k1 : Str) : Str := k ++ '.' :: k1

/-- Body of the first loop (lines 83-103) for one visited entry `k, v`. -/
def reduceEntry (ro : RangeOrder) (tmp : GoMap) (kv : Str × Value) : GoMap :=
  match kv.2 with
  | .map m => (ro.order m).foldl (fun t kv1 => GoMap.set t (dotted kv.1 kv1.1) kv1.2) tmp
  | .bool b => GoMap.set tmp kv.1 (.bool b)
  | .str s => GoMap.set tmp kv.1 (.str s)
  | .int n => GoMap.set tmp kv.1 (.int n)
  | .float32 f => GoMap.set tmp kv.1 (.float32 f)
  | .float64 f => GoMap.set tmp kv.1 (.float64 f)
  | _ => tmp

/-- The first loop (lines 79-104): one dimension of the map is reduced. -/
def reduce1D (ro : RangeOrder) (i : GoMap) : GoMap :=
  (ro.order i).foldl (reduceEntry ro) []

/-- The flattener `convertMapTo1DMap` (lines 78-114).  `fuel` bounds the depth of nested
activations; `none` means the bound was reached.  The second loop ranges over the map
`tmp` had when the loop started and, for every value of kind `Map` met, replaces `tmp`
by the flattening of the current `tmp`. -/
def convertMapTo1DMap (ro : RangeOrder) : Nat → GoMap → Option GoMap
  | 0, _ => none
  | fuel + 1, i =>
    let tmp := reduce1D ro i
    (ro.order tmp).foldlM
      (fun t kv =>
        match kv.2.kind with
        | .map => convertMapTo1DMap ro fuel t
        | _ => some t)
      tmp

/-- The step of the second loop (lines 107-112). -/
def secondLoopStep (ro : RangeOrder) (fuel : Nat) (t : GoMap) (kv : Str × Value) : Option GoMap :=
  match kv.2.kind with
  | .map => convertMapTo1DMap ro fuel t
  | _ => some t

mutual
/-- Nesting depth of a value: 0 for a value that is not a mapping, one more than the depth
of its values for a mapping. -/
def Value.depth : Value → Nat
  | .map m => mapDepth m + 1
  | _ => 0
termination_by structural v => v
/-- Nesting depth of the values of a mapping (0 when no value is a mapping). -/
def mapDepth : GoMap → Nat
  | [] => 0
  | (_, v) :: rest => max v.depth (mapDepth rest)
termination_by structural m => m
end

/-! ### What the specification says of flattening -/

/-- No value of the mapping is a mapping. -/
def noMap (m : GoMap) : Prop := ∀ x ∈ m, x.2.kind ≠ Kind.map


/-- Re-keying under a parent key: `(k1, v) ↦ (k + "." + k1, v)`. -/
def rekey (k : Str) (kv : Str × Value) : Str × Value := (dotted k kv.1, kv.2)

mutual
/-- The leaves below a value, with their dotted paths relative to it. -/
def Value.leavesBelow : Value → List (Str × Value)
  | .map m => leaves m
  | _ => []
termination_by structural v => v
/-- The leaves of a nested mapping (its values, at any depth, that are not mappings), each
with its dotted path: the ancestor keys joined by ".". -/
def leaves : GoMap → List (Str × Value)
  | [] => []
  | (k, v) :: rest =>
    (if v.kind = Kind.map then v.leavesBelow.map (rekey k) else [(k, v)]) ++ leaves rest
termination_by structural m => m
end

mutual
/-- The entries below a value, at any depth, with their dotted paths relative to it. -/
def Value.nodesBelow : Value → List (Str × Value)
  | .map m => nodes m
  | _ => []
termination_by structural v => v
/-- All the entries of a nested mapping, at any depth, inner mappings included, each with
its dotted path. -/
def nodes : GoMap → List (Str × Value)
  | [] => []
  | (k, v) :: rest => (k, v) :: (v.nodesBelow.map (rekey k) ++ nodes rest)
termination_by structural m => m
end

/-- The keys of a list of entries. -/
def keys (m : List (Str × Value)) : List Str := m.map Prod.fst

/-- Number of scalar leaves of a nested mapping. -/
def scalarLeafCount (i : GoMap) : Nat := ((leaves i).filter (fun kv => kv.2.isScalar)).length

/-- The entries the first loop writes for one visited entry. -/
def expandEntry (ro : RangeOrder) (kv : Str × Value) : List (Str × Value) :=
  match kv.2 with
  | .map m => (ro.order m).map (rekey kv.1)
  | .null => []
  | .seq _ => []
  | _ => [kv]

/-- The leaves of one entry, with their dotted paths. -/
def leavesOf (kv : Str × Value) : List (Str × Value) :=
  if kv.2.kind = Kind.map then kv.2.leavesBelow.map (rekey kv.1) else [kv]

/-- The nodes of one entry, with their dotted paths. -/
def nodesOf (kv : Str × Value) : List (Str × Value) :=
  kv :: kv.2.nodesBelow.map (rekey kv.1)

/-- Every leaf is a scalar. -/
def scalarLeaves (i : GoMap) : Prop := ∀ x ∈ leaves i, x.2.isScalar = true

/-! ## The substitution engine: `convertTypeToString` and `replaceVarsByValues` -/

/-- The ways in which the substitution engine panics. -/
inductive Panic where
  /-- The panic `"error getting variable " + el + ": Not found\n"` of line 175. -/
  | variableNotFound (el : Str)
  /-- The panic `"type is not supported"` of line 153. -/
  | typeNotSupported
  /-- The panic of `regexp.MustCompile` on the expression built from `el`, line 171. -/
  | regexpCompile (el : Str)

/-- What the program takes from Go's library and this development does not define:
the text `strconv.FormatFloat(x, 'E', -1, 64)` of a float, the Unicode classification
`unicode.IsLetter(c) || unicode.IsDigit(c)` of the characters outside ASCII, and what package
`regexp` does with an expression outside the fragment defined below (`otherCompiles`: the
expression compiles; `otherReplaceAll expr src repl`: the result of `ReplaceAllString`). -/
structure GoLib where
  formatFloat32 : Nat → Str
  formatFloat64 : Nat → Str
  letterOrDigit : Char → Bool
  otherCompiles : Str → Bool
  otherReplaceAll : Str → Str → Str → Str

/-- The text `strconv.FormatBool(b)`. -/
def formatBool (b : Bool) : Str := if b then "true".toList else "false".toList

/-- The text `strconv.FormatInt(n, 10)`: the decimal digits, after a minus sign when `n` is negative. -/
def formatInt : Int → Str
  | .ofNat m => Nat.toDigits 10 m
  | .negSucc m => '-' :: Nat.toDigits 10 (m + 1)

/-- The coercion `convertTypeToString` (lines 140-156). -/
def convertTypeToString (L : GoLib) : Value → Except Panic Str
  | .float32 f => .ok (L.formatFloat32 f)
  | .float64 f => .ok (L.formatFloat64 f)
  | .int n => .ok (formatInt n)
  | .bool b => .ok (formatBool b)
  | .str s => .ok s
  | _ => .error Panic.typeNotSupported

/-! ### The placeholder pattern `(?m)\{\{([^\{^\};]+)\}\}` -/

/-- The character class `[^\{^\};]`: every character but `{`, `^`, `}` and `;`
(the second `^` of the class is a member of it; the newline is not excluded). -/
def identChar (c : Char) : Bool := !(c = '{' || c = '^' || c = '}' || c = ';')

/-- The text after the prefix `p` of `s`, when `s` starts with `p`. -/
def stripPrefix : Str → Str → Option Str
  | [], s => some s
  | _ :: _, [] => none
  | p :: ps, c :: t => if p = c then stripPrefix ps t else none

/-- A match of the placeholder pattern that starts at the beginning of `s`: the text of
group 1 and the text after the match.  After `{{` the greedy group takes the longest run of
class characters; no shorter run can be followed by `}`, which is outside the class, so
the match, when there is one, is `{{`, that whole run (not empty), `}}`. -/
def matchPlaceholder (s : Str) : Option (Str × Str) :=
  match stripPrefix ['{', '{'] s with
  | none => none
  | some t =>
    if t.takeWhile identChar = [] then none
    else
      match stripPrefix ['}', '}'] (t.dropWhile identChar) with
      | none => none
      | some rest => some (t.takeWhile identChar, rest)

/-- The text of a placeholder token: `{{` + id + `}}`. -/
def token (id : Str) : Str := '{' :: '{' :: (id ++ ['}', '}'])

/-- The scan of `FindAllStringSubmatch`, with a bound on the number of steps: the leftmost
match, then the leftmost match in what follows it, and so on.  Each match is the list of
the whole match and of group 1. -/
def findAllAux : Nat → Str → List (List Str)
  | 0, _ => []
  | _ + 1, [] => []
  | n + 1, c :: t =>
    match matchPlaceholder (c :: t) with
    | some (id, rest) => [token id, id] :: findAllAux n rest
    | none => findAllAux n t

/-- The successive matches `reg.FindAllStringSubmatch(body, -1)` of the placeholder pattern. -/
def findAllStringSubmatch (body : Str) : List (List Str) := findAllAux body.length body

/-- The test `strings.Contains(s, substr)`. -/
def stringsContains : Str → Str → Bool
  | [], substr => substr.isEmpty
  | c :: t, substr => substr.isPrefixOf (c :: t) || stringsContains t substr

/-! ### The expression compiled for an identifier: `\{\{` + el + `\}\}` -/

/-- The metacharacters of Go's regular expressions (those `regexp.QuoteMeta` escapes). -/
def regexMeta (c : Char) : Bool :=
  c = '\\' || c = '.' || c = '+' || c = '*' || c = '?' || c = '(' || c = ')' || c = '|' ||
  c = '[' || c = ']' || c = '{' || c = '}' || c = '^' || c = '$'

/-- One position of an expression made of single characters. -/
inductive Atom where
  /-- A character that stands for itself. -/
  | lit (c : Char)
  /-- The dot: any character but the newline. -/
  | dot

/-- The characters an atom matches. -/
def Atom.accepts : Atom → Char → Bool
  | .lit c, d => c = d
  | .dot, d => !(d = '\n')

/-- The atom of a character of the identifier. -/
def Atom.ofChar (c : Char) : Atom := if c = '.' then Atom.dot else Atom.lit c

/-- The dot is the only metacharacter of the identifier. -/
def plainIdent (el : Str) : Bool := el.all (fun c => !regexMeta c || c = '.')

/-- The atoms of the expression compiled for a plain identifier. -/
def identPattern (el : Str) : List Atom :=
  Atom.lit '{' :: Atom.lit '{' :: (el.map Atom.ofChar ++ [Atom.lit '}', Atom.lit '}'])

/-- A compiled expression: a sequence of atoms, or an expression left to `GoLib`. -/
inductive Regexp where
  | atoms (pattern : List Atom)
  | other (el : Str)

/-- The call of `regexp.MustCompile` on `\{\{` + el + `\}\}` (line 171).
* When the dot is the only metacharacter of `el`, the expression is the sequence of the
  characters `{{`, of `el` (a dot matching any character but the newline) and of `}}`.
* When `el` has a `(` and none of `)`, `[`, `\`, the parenthesis opens a group that nothing
  closes: `MustCompile` panics.
* Anything else is left to `GoLib`. -/
def mustCompile (L : GoLib) (el : Str) : Except Panic Regexp :=
  if plainIdent el then .ok (Regexp.atoms (identPattern el))
  else if el.any (fun c => c = '(') && !el.any (fun c => c = ')' || c = '[' || c = '\\') then
    .error (Panic.regexpCompile el)
  else if L.otherCompiles el then .ok (Regexp.other el)
  else .error (Panic.regexpCompile el)

/-- A match of a sequence of atoms that starts at the beginning of `s`: the matched text and
the text after it. -/
def matchAtoms : List Atom → Str → Option (Str × Str)
  | [], s => some ([], s)
  | _ :: _, [] => none
  | a :: pattern, c :: t =>
    if a.accepts c then (matchAtoms pattern t).map (fun mr => (c :: mr.1, mr.2)) else none

/-- A character of a group name in a replacement template: a letter, a digit or `_`. -/
def nameChar (L : GoLib) (c : Char) : Bool :=
  if c.val < 128 then c.isAlphanum || c = '_' else L.letterOrDigit c

/-- The reference that follows a `$` in a template (`extract` of package `regexp`): a name
or a name in braces, made of name characters and not empty.  Returns the name and the rest
of the template. -/
def extractName (L : GoLib) : Str → Option (Str × Str)
  | [] => none
  | '{' :: t =>
    match t.takeWhile (nameChar L), t.dropWhile (nameChar L) with
    | [], _ => none
    | c :: cs, '}' :: rest => some (c :: cs, rest)
    | _, _ => none
  | c :: t =>
    match (c :: t).takeWhile (nameChar L) with
    | [] => none
    | name => some (name, (c :: t).dropWhile (nameChar L))

/-- The expansion of a replacement template for one match of an expression without groups
(`Regexp.expand`), with a bound on the number of steps: `$$` is a dollar, `$0` and `${0}`
are the matched text, any other reference is empty, a `$` that no reference follows stands
for itself. -/
def expandAux (L : GoLib) (matched : Str) : Nat → Str → Str
  | 0, _ => []
  | _ + 1, [] => []
  | n + 1, c :: t =>
    if c = '$' then
      match t with
      | '$' :: t' => '$' :: expandAux L matched n t'
      | _ =>
        match extractName L t with
        | none => '$' :: expandAux L matched n t
        | some (name, rest) => (if name = ['0'] then matched else []) ++ expandAux L matched n rest
    else c :: expandAux L matched n t

/-- The replacement text of one match. -/
def expand (L : GoLib) (repl matched : Str) : Str := expandAux L matched repl.length repl

/-- The scan of `ReplaceAllString` for a sequence of atoms, with a bound on the number of
steps: the text before the leftmost match is kept, the match is replaced by the expansion
of the template, and the scan goes on after the match. -/
def replaceAllAux (L : GoLib) (pattern : List Atom) (repl : Str) : Nat → Str → Str
  | 0, _ => []
  | _ + 1, [] => []
  | n + 1, c :: t =>
    match matchAtoms pattern (c :: t) with
    | some (matched, rest) => expand L repl matched ++ replaceAllAux L pattern repl n rest
    | none => c :: replaceAllAux L pattern repl n t

/-- The call `r.ReplaceAllString(src, repl)` (line 172). -/
def Regexp.replaceAllString (L : GoLib) : Regexp → Str → Str → Str
  | .atoms pattern, src, repl => replaceAllAux L pattern repl src.length src
  | .other el, src, repl => L.otherReplaceAll el src repl

/-- Body of the inner loop (lines 166-176) for one element `el` of a match. -/
def replaceVar (L : GoLib) (cfg : GoMap) (tmpBody : Str) (el : Str) : Except Panic Str :=
  if stringsContains el ['{', '{'] then .ok tmpBody
  else
    match cfg.get el with
    | some val =>
      match mustCompile L el with
      | .error p => .error p
      | .ok r =>
        match convertTypeToString L val with
        | .error p => .error p
        | .ok s => .ok (r.replaceAllString L tmpBody s)
    | none => .error (Panic.variableNotFound el)

/-- The substitution `replaceVarsByValues` (lines 157-181): the matches are found in `body`
once, then every element of every match is looked up and replaced in the running text. -/
def replaceVarsByValues (L : GoLib) (cfg : GoMap) (body : Str) : Except Panic Str :=
  (findAllStringSubmatch body).foldlM (fun tmpBody e => e.foldlM (replaceVar L cfg) tmpBody) body

/-- A library for examples: floats are all printed as `0E+00`, no character outside
ASCII is a letter or a digit, no expression outside the fragment compiles. -/
def GoLib.sample : GoLib :=
  ⟨fun _ => "0E+00".toList, fun _ => "0E+00".toList, fun _ => false, fun _ => false,
    fun _ src _ => src⟩

/-! ### What the specification says of substitution -/

/-- A piece of a text: a character outside the placeholder tokens, or a token. -/
inductive Seg where
  | lit (c : Char)
  | tok (id : Str)
  deriving DecidableEq

/-- The text of a list of pieces. -/
def render : List Seg → Str
  | [] => []
  | .lit c :: rest => c :: render rest
  | .tok id :: rest => token id ++ render rest

/-- The identifiers of the tokens of a list of pieces, in order. -/
def tokenIds : List Seg → List Str
  | [] => []
  | .lit _ :: rest => tokenIds rest
  | .tok id :: rest => id :: tokenIds rest

/-- The same scan as `findAllAux`, keeping the characters between the matches. -/
def segmentsAux : Nat → Str → List Seg
  | 0, _ => []
  | _ + 1, [] => []
  | n + 1, c :: t =>
    match matchPlaceholder (c :: t) with
    | some (id, rest) => Seg.tok id :: segmentsAux n rest
    | none => Seg.lit c :: segmentsAux n t

/-- The text cut into the placeholder tokens matched by the pattern and the characters
outside them. -/
def segments (body : Str) : List Seg := segmentsAux body.length body

/-- The string form of the value of `id` in the mapping (empty when there is none). -/
def stringForm (L : GoLib) (cfg : GoMap) (id : Str) : Str :=
  match cfg.get id with
  | some v =>
    match convertTypeToString L v with
    | .ok s => s
    | .error _ => []
  | none => []

/-- Simultaneous substitution: every token is replaced by the string form of the value of
its identifier, every other character is kept. -/
def substituteAll (L : GoLib) (cfg : GoMap) : List Seg → Str
  | [] => []
  | .lit c :: rest => c :: substituteAll L cfg rest
  | .tok id :: rest => stringForm L cfg id ++ substituteAll L cfg rest

/-- What the replacement of the token of `id0` by `s0` does to one piece of a text. -/
def replaceTok (id0 s0 : Str) : Seg → List Seg
  | .lit c => [Seg.lit c]
  | .tok id => if id = id0 then s0.map Seg.lit else [Seg.tok id]

/-- A piece that the replacements cannot confuse: a character other than `{`, or a token
whose identifier is not empty and made of class characters. -/
def Seg.clean : Seg → Prop
  | .lit c => c ≠ '{'
  | .tok id => id ≠ [] ∧ ∀ c ∈ id, identChar c = true

/-- No metacharacter at all in the identifier. -/
def literalIdent (el : Str) : Prop := ∀ c ∈ el, regexMeta c = false

/-- What the replacements done so far, for the identifiers of `S`, have made of a piece of
the text. -/
def substSeg (L : GoLib) (cfg : GoMap) (S : List Str) : Seg → List Seg
  | .lit c => [Seg.lit c]
  | .tok id => if id ∈ S then (stringForm L cfg id).map Seg.lit else [Seg.tok id]

/-- The identifiers whose replacement is a plain substitution: no metacharacter, a key of
the mapping, a value whose string form has neither `$` nor `{`. -/
def substitutable (L : GoLib) (cfg : GoMap) (id : Str) : Prop :=
  literalIdent id ∧ ∃ v s, cfg.get id = some v ∧ convertTypeToString L v = .ok s ∧
    ∀ c ∈ s, c ≠ '$' ∧ c ≠ '{'

/-! ## Example inputs -/

instance (m : GoMap) : Decidable (noMap m) := by unfold noMap; infer_instance

instance (i : GoMap) : Decidable (scalarLeaves i) := by unfold scalarLeaves; infer_instance

mutual
/-- The sibling keys are distinct at every level below a value. -/
def Value.distinctSiblings : Value → Bool
  | .map m => siblingKeysDistinct m
  | _ => true
termination_by structural v => v
/-- The sibling keys are distinct at every level of a nested mapping. -/
def siblingKeysDistinct : GoMap → Bool
  | [] => true
  | (k, v) :: rest => !(keys rest).contains k && v.distinctSiblings && siblingKeysDistinct rest
termination_by structural m => m
end

/-- The configuration `a: {b.c: {d: 1}}, a.b: {c: {e: 2}}`: two inner mappings have the
dotted path `a.b.c`, the two leaves have the distinct paths `a.b.c.d` and `a.b.c.e`. -/
def clashingInner : GoMap :=
  [("a".toList, .map [("b.c".toList, .map [("d".toList, .int 1)])]),
   ("a.b".toList, .map [("c".toList, .map [("e".toList, .int 2)])])]

/-- The configuration `a: {b: 1}, a.b: 2`: the sibling keys are distinct at every level, the
two leaves have the same dotted path `a.b`. -/
def clashingLeaf : GoMap :=
  [("a".toList, .map [("b".toList, .int 1)]), ("a.b".toList, .int 2)]

/-- The configuration `a: {b: [1]}`: a sequence inside a nested mapping. -/
def nestedSeq : GoMap := [("a".toList, .map [("b".toList, .seq [.int 1])])]

/-- The configuration `a: {b: 1}, c: x`. -/
def smallConfig : GoMap := [("a".toList, .map [("b".toList, .int 1)]), ("c".toList, .str "x".toList)]

/-- The text `{{{{a}}}}`. -/
def nestedBraces : Str := '{' :: '{' :: (token "a".toList ++ ['}', '}'])

/-- The text `{{{{a}}}} {{x}}`. -/
def bracesAroundToken : Str := nestedBraces ++ ' ' :: token "x".toList

/-- The mapping `a: x, x: Y`. -/
def chainedConfig : GoMap := [("a".toList, .str "x".toList), ("x".toList, .str "Y".toList)]

/-- The text `{{a}} {{b}}`. -/
def twoTokens : Str := token "a".toList ++ ' ' :: token "b".toList

/-- The mapping `a.b: 1, axb: 2`. -/
def dottedConfig : GoMap := [("a.b".toList, .str "1".toList), ("axb".toList, .str "2".toList)]

/-- The text `{{a.b}} {{axb}}`. -/
def dottedText : Str := token "a.b".toList ++ ' ' :: token "axb".toList

/-- The mapping `x: {{y}}, y: w`. -/
def reResolvedConfig : GoMap :=
  [("x".toList, .str (token "y".toList)), ("y".toList, .str "w".toList)]

/-- The text `{{x}} {{y}}`. -/
def xThenY : Str := token "x".toList ++ ' ' :: token "y".toList

/-- The number read from decimal digits, most significant first. -/
def digitsValue (s : Str) : Nat := s.foldl (fun a c => 10 * a + (c.toNat - '0'.toNat)) 0

/-- Parsing of a decimal integer: an optional minus sign, then digits, at least one. -/
def parseInt : Str → Option Int
  | [] => none
  | c :: ds =>
    if c = '-' then
      if ds ≠ [] ∧ ds.all Char.isDigit = true then some (-(digitsValue ds : Int)) else none
    else if (c :: ds).all Char.isDigit = true then some (digitsValue (c :: ds) : Int)
    else none

/-- The pieces of a text made of tokens of `x` separated by the texts of `seps`. -/
def repeatedToken (x : Str) (seps : List Str) : List Seg :=
  Seg.tok x :: seps.flatMap (fun sep => sep.map Seg.lit ++ [Seg.tok x])

/-- The characters of an identifier as the specification words them: every character but
`{`, `}` and `;`. -/
def specChar (c : Char) : Bool := !(c = '{' || c = '}' || c = ';')

/-- The text starts with `{{`, one or more specification characters, `}}`. -/
def tokenAt (s : Str) : Bool :=
  match stripPrefix ['{', '{'] s with
  | none => false
  | some t =>
    !(t.takeWhile specChar).isEmpty && (stripPrefix ['}', '}'] (t.dropWhile specChar)).isSome

/-- The text has a substring made of `{{`, one or more specification characters, `}}`. -/
def containsToken (s : Str) : Bool := s.tails.any tokenAt

/-- The text `{{}} {{a;b}} {a} plain`. -/
def noTokenText : Str :=
  '{' :: '{' :: '}' :: '}' :: ' ' :: '{' :: '{' :: 'a' :: ';' :: 'b' :: '}' :: '}' :: ' ' ::
    '{' :: 'a' :: '}' :: " plain".toList

/-- The call `strings.Replace(s, old, new, -1)` for a non-empty `old`, with a bound on the
number of steps: the leftmost occurrence of `old` is replaced, then the leftmost one in
what follows it, and so on. -/
def stringsReplaceAux (old new : Str) : Nat → Str → Str
  | 0, _ => []
  | _ + 1, [] => []
  | n + 1, c :: t =>
    match stripPrefix old (c :: t) with
    | some rest => new ++ stringsReplaceAux old new n rest
    | none => c :: stringsReplaceAux old new n t

/-- The call `strings.Replace(s, old, new, -1)` for a non-empty `old`. -/
def stringsReplaceAll (s old new : Str) : Str := stringsReplaceAux old new s.length s

/-- The marker `.template` of the template files. -/
def templateMarker : Str := ".template".toList

/-- The name of the output file computed by `replaceFile` (lines 204-206): the placeholders of
the file name are substituted, then the marker is removed. -/
def newFileName (L : GoLib) (cfg : GoMap) (fileName : Str) : Except Panic Str :=
  match replaceVarsByValues L cfg fileName with
  | .ok newName => .ok (stringsReplaceAll newName templateMarker [])
  | .error p => .error p

/-- The mapping `a(b: null`. -/
def unclosedGroupConfig : GoMap := [("a(b".toList, Value.null)]

/-- The configuration `x.y: true, x: {y: false}`: two scalar leaves with the dotted path
`x.y`. -/
def clashingOrder : GoMap :=
  [("x.y".toList, .bool true), ("x".toList, .map [("y".toList, .bool false)])]

/-- The configuration `a: {b: {c: 1}, d: {e: 2}}, f: 3`. -/
def deepConfig : GoMap :=
  [("a".toList, .map [("b".toList, .map [("c".toList, .int 1)]),
      ("d".toList, .map [("e".toList, .int 2)])]),
   ("f".toList, .int 3)]

/-- The step of the second loop (lines 107-112), keeping the list of the arguments of the
nested calls: the state is the current `tmp` (`none` once a nested call has reached the
bound) and the arguments met so far. -/
def tracedStep (ro : RangeOrder) (fuel : Nat) (st : Option GoMap × List GoMap)
    (kv : Str × Value) : Option GoMap × List GoMap :=
  match st.1 with
  | none => st
  | some t =>
    match kv.2.kind with
    | .map => (convertMapTo1DMap ro fuel t, st.2 ++ [t])
    | _ => (some t, st.2)

/-- The second loop on `tmp`, keeping the arguments of the nested calls. -/
def tracedLoop (ro : RangeOrder) (fuel : Nat) (tmp : GoMap) : Option GoMap × List GoMap :=
  (ro.order tmp).foldl (tracedStep ro fuel) (some tmp, [])

/-- The arguments of the nested calls made by the activation of `convertMapTo1DMap` on `i`,
in order. -/
def nestedCalls (ro : RangeOrder) (fuel : Nat) (i : GoMap) : List GoMap :=
  (tracedLoop ro fuel (reduce1D ro i)).2

/-- The leaves of one entry are all scalars. -/
def scalarEntry (kv : Str × Value) : Prop := ∀ x ∈ leavesOf kv, x.2.isScalar = true

/-- The canonical string form of a scalar, as the specification words it: `true` or `false`
for a Boolean, the decimal string for an Integer, the string itself for a String. -/
def canonicalForm : Value → Str
  | .bool true => "true".toList
  | .bool false => "false".toList
  | .int n => formatInt n
  | .str s => s
  | _ => []

/-! ## Facts on the flattener -/

theorem mem_set {t : GoMap} {k : Str} {v : Value} {x : Str × Value}
    (h : x ∈ GoMap.set t k v) : x ∈ t ∨ x = (k, v) := by
  induction t with
  | nil => simpa [GoMap.set] using h
  | cons hd tl ih =>
    obtain ⟨k', v'⟩ := hd
    simp only [GoMap.set] at h
    split at h
    · rcases List.mem_cons.1 h with h | h
      · exact Or.inr h
      · exact Or.inl (List.mem_cons_of_mem _ h)
    · rcases List.mem_cons.1 h with h | h
      · exact Or.inl (h ▸ List.mem_cons_self _ _)
      · rcases ih h with h | h
        · exact Or.inl (List.mem_cons_of_mem _ h)
        · exact Or.inr h

theorem depth_map (m : GoMap) : (Value.map m).depth = mapDepth m + 1 := by
  simp [Value.depth]

theorem depth_eq_zero {v : Value} (h : v.kind ≠ Kind.map) : v.depth = 0 := by
  cases v <;> simp_all [Value.depth, Value.kind]

theorem depth_pos {v : Value} (h : v.kind = Kind.map) : 0 < v.depth := by
  cases v <;> simp_all [Value.depth, Value.kind]

theorem mapDepth_le_iff (m : GoMap) (n : Nat) :
    mapDepth m ≤ n ↔ ∀ x ∈ m, x.2.depth ≤ n := by
  induction m with
  | nil => simp [mapDepth]
  | cons hd tl ih =>
    obtain ⟨k, v⟩ := hd
    simp [mapDepth, ih]

theorem depth_le_mapDepth {m : GoMap} {x : Str × Value} (h : x ∈ m) : x.2.depth ≤ mapDepth m :=
  (mapDepth_le_iff m (mapDepth m)).1 (Nat.le_refl _) x h

theorem foldl_set_depth (k : Str) (d : Nat) (l tmp : GoMap)
    (hl : ∀ x ∈ l, x.2.depth ≤ d) (ht : ∀ x ∈ tmp, x.2.depth ≤ d) :
    ∀ x ∈ l.foldl (fun t kv1 => GoMap.set t (dotted k kv1.1) kv1.2) tmp, x.2.depth ≤ d := by
  induction l generalizing tmp with
  | nil => simpa using ht
  | cons hd tl ih =>
    simp only [List.foldl_cons]
    apply ih
    · intro x hx; exact hl x (List.mem_cons_of_mem _ hx)
    · intro x hx
      rcases mem_set hx with hx | hx
      · exact ht x hx
      · subst hx; exact hl hd (List.mem_cons_self _ _)

theorem reduceEntry_depth (ro : RangeOrder) (d : Nat) (tmp : GoMap) (kv : Str × Value)
    (hkv : kv.2.depth ≤ d + 1) (ht : ∀ x ∈ tmp, x.2.depth ≤ d) :
    ∀ x ∈ reduceEntry ro tmp kv, x.2.depth ≤ d := by
  obtain ⟨k, v⟩ := kv
  cases v with
  | map m =>
    simp only [reduceEntry]
    apply foldl_set_depth
    · intro x hx
      have hx' : x ∈ m := (ro.perm m).mem_iff.1 hx
      have := depth_le_mapDepth hx'
      simp only [depth_map] at hkv
      omega
    · exact ht
  | null => simpa [reduceEntry] using ht
  | seq items => simpa [reduceEntry] using ht
  | bool b =>
    intro x hx
    rcases mem_set (by simpa [reduceEntry] using hx) with hx | hx
    · exact ht x hx
    · subst hx; simp [Value.depth]
  | int b =>
    intro x hx
    rcases mem_set (by simpa [reduceEntry] using hx) with hx | hx
    · exact ht x hx
    · subst hx; simp [Value.depth]
  | float32 b =>
    intro x hx
    rcases mem_set (by simpa [reduceEntry] using hx) with hx | hx
    · exact ht x hx
    · subst hx; simp [Value.depth]
  | float64 b =>
    intro x hx
    rcases mem_set (by simpa [reduceEntry] using hx) with hx | hx
    · exact ht x hx
    · subst hx; simp [Value.depth]
  | str b =>
    intro x hx
    rcases mem_set (by simpa [reduceEntry] using hx) with hx | hx
    · exact ht x hx
    · subst hx; simp [Value.depth]

theorem foldl_reduceEntry_depth (ro : RangeOrder) (d : Nat) (l tmp : GoMap)
    (hl : ∀ x ∈ l, x.2.depth ≤ d + 1) (ht : ∀ x ∈ tmp, x.2.depth ≤ d) :
    ∀ x ∈ l.foldl (reduceEntry ro) tmp, x.2.depth ≤ d := by
  induction l generalizing tmp with
  | nil => simpa using ht
  | cons hd tl ih =>
    simp only [List.foldl_cons]
    apply ih
    · intro x hx; exact hl x (List.mem_cons_of_mem _ hx)
    · exact reduceEntry_depth ro d tmp hd (hl hd (List.mem_cons_self _ _)) ht

/-- One pass of the first loop lowers the nesting depth by one. -/
theorem mapDepth_reduce1D (ro : RangeOrder) (i : GoMap) :
    mapDepth (reduce1D ro i) ≤ mapDepth i - 1 := by
  rw [mapDepth_le_iff]
  apply foldl_reduceEntry_depth
  · intro x hx
    have := depth_le_mapDepth ((ro.perm i).mem_iff.1 hx)
    omega
  · simp

theorem mapDepth_eq_zero {m : GoMap} (h : noMap m) : mapDepth m = 0 := by
  have : mapDepth m ≤ 0 := by
    rw [mapDepth_le_iff]
    intro x hx
    simp [depth_eq_zero (h x hx)]
  omega

theorem noMap_of_mapDepth {m : GoMap} (h : mapDepth m = 0) : noMap m := by
  intro x hx hk
  have h1 := depth_pos hk
  have h2 := depth_le_mapDepth hx
  omega

theorem convertMapTo1DMap_succ (ro : RangeOrder) (fuel : Nat) (i : GoMap) :
    convertMapTo1DMap ro (fuel + 1) i
      = (ro.order (reduce1D ro i)).foldlM (secondLoopStep ro fuel) (reduce1D ro i) := rfl

theorem noMap_of_cons {hd : Str × Value} {tl : GoMap} (h : noMap (hd :: tl)) : noMap tl :=
  fun x hx => h x (List.mem_cons_of_mem _ hx)

theorem noMap_perm {l m : GoMap} (h : l.Perm m) (hl : noMap l) : noMap m :=
  fun x hx => hl x (h.mem_iff.2 hx)

/-- The second loop: either no value of kind `Map` is met and `tmp` is left as it is, or
the result comes from a nested call. -/
theorem secondLoop_inv (ro : RangeOrder) (fuel : Nat) (P : GoMap → Prop)
    (ih : ∀ j, P j → ∃ r, convertMapTo1DMap ro fuel j = some r ∧ P r ∧ noMap r)
    (l t : GoMap) (ht : ¬ noMap l → P t) :
    ∃ r, l.foldlM (secondLoopStep ro fuel) t = some r ∧
      ((r = t ∧ noMap l) ∨ (P r ∧ noMap r)) := by
  induction l generalizing t with
  | nil => exact ⟨t, rfl, Or.inl ⟨rfl, by intro x hx; simp at hx⟩⟩
  | cons hd tl ihl =>
    by_cases hk : hd.2.kind = Kind.map
    · have hPt : P t := ht (fun hn => hn hd (List.mem_cons_self _ _) hk)
      obtain ⟨r1, hr1, hP1, hn1⟩ := ih t hPt
      obtain ⟨r, hr, hcase⟩ := ihl r1 (fun _ => hP1)
      refine ⟨r, ?_, Or.inr ?_⟩
      · simp [List.foldlM_cons, secondLoopStep, hk, hr1, hr]
      · rcases hcase with ⟨h, _⟩ | h
        · exact h ▸ ⟨hP1, hn1⟩
        · exact h
    · have hstep : secondLoopStep ro fuel t hd = some t := by
        unfold secondLoopStep
        split
        · next h => exact absurd h hk
        · rfl
      have hcons : ∀ {x : Str × Value}, noMap tl → x ∈ hd :: tl → x.2.kind ≠ Kind.map := by
        intro x hn hx
        rcases List.mem_cons.1 hx with hx | hx
        · exact hx ▸ hk
        · exact hn x hx
      obtain ⟨r, hr, hcase⟩ := ihl t (fun hn => ht (fun hn' => hn (noMap_of_cons hn')))
      refine ⟨r, ?_, ?_⟩
      · simp [List.foldlM_cons, hstep, hr]
      · rcases hcase with ⟨h, hn⟩ | h
        · exact Or.inl ⟨h, fun x hx => hcons hn hx⟩
        · exact Or.inr h

/-- Termination and depth collapse: with a bound above the nesting depth the flattener
returns, and no value of its result is a mapping. -/
theorem convertMapTo1DMap_noMap (ro : RangeOrder) (fuel : Nat) (i : GoMap)
    (h : mapDepth i < fuel) :
    ∃ r, convertMapTo1DMap ro fuel i = some r ∧ noMap r := by
  induction fuel generalizing i with
  | zero => omega
  | succ fuel ih =>
    rw [convertMapTo1DMap_succ]
    have hd := mapDepth_reduce1D ro i
    obtain ⟨r, hr, hcase⟩ := secondLoop_inv ro fuel (fun j => mapDepth j < fuel)
      (fun j hj => by
        obtain ⟨r, hr, hn⟩ := ih j hj
        have h0 := mapDepth_eq_zero hn
        have hj' : mapDepth j < fuel := hj
        exact ⟨r, hr, (by omega : mapDepth r < fuel), hn⟩)
      (ro.order (reduce1D ro i)) (reduce1D ro i)
      (fun hn => by
        have h1 : ¬ noMap (reduce1D ro i) := fun h' => hn (noMap_perm (ro.perm _).symm h')
        have h2 : mapDepth (reduce1D ro i) ≠ 0 := fun h' => h1 (noMap_of_mapDepth h')
        show mapDepth (reduce1D ro i) < fuel
        omega)
    refine ⟨r, hr, ?_⟩
    rcases hcase with ⟨h1, h2⟩ | ⟨_, h2⟩
    · exact h1 ▸ noMap_perm (ro.perm _) h2
    · exact h2

theorem set_fresh {t : GoMap} {k : Str} (v : Value) (h : k ∉ keys t) :
    GoMap.set t k v = t ++ [(k, v)] := by
  induction t with
  | nil => rfl
  | cons hd tl ih =>
    obtain ⟨k', v'⟩ := hd
    simp only [keys, List.map_cons, List.mem_cons, not_or] at h
    have hne : ¬ k' = k := fun e => h.1 e.symm
    simp only [GoMap.set, if_neg hne, List.cons_append]
    rw [ih (by simpa [keys] using h.2)]

theorem keys_append (a b : List (Str × Value)) : keys (a ++ b) = keys a ++ keys b := by
  simp [keys]

theorem foldl_set_fresh (k : Str) (l tmp : GoMap)
    (h : (keys (tmp ++ l.map (rekey k))).Nodup) :
    l.foldl (fun t kv1 => GoMap.set t (dotted k kv1.1) kv1.2) tmp = tmp ++ l.map (rekey k) := by
  induction l generalizing tmp with
  | nil => simp
  | cons hd tl ih =>
    have h' : (keys ((tmp ++ [rekey k hd]) ++ tl.map (rekey k))).Nodup := by
      simpa using h
    have hfresh : dotted k hd.1 ∉ keys tmp := by
      intro hmem
      rw [keys_append, List.nodup_append] at h
      exact h.2.2 hmem (by simp [keys, rekey])
    simp only [List.foldl_cons, List.map_cons]
    rw [set_fresh _ hfresh]
    have := ih (tmp ++ [rekey k hd]) h'
    simp only [rekey] at this ⊢
    rw [this]
    simp

theorem reduceEntry_fresh (ro : RangeOrder) (tmp : GoMap) (kv : Str × Value)
    (h : (keys (tmp ++ expandEntry ro kv)).Nodup) :
    reduceEntry ro tmp kv = tmp ++ expandEntry ro kv := by
  obtain ⟨k, v⟩ := kv
  have hfresh : expandEntry ro (k, v) = [(k, v)] → k ∉ keys tmp := by
    intro he hmem
    rw [he, keys_append, List.nodup_append] at h
    exact h.2.2 hmem (by simp [keys])
  cases v with
  | map m => exact foldl_set_fresh k (ro.order m) tmp h
  | null => simp [reduceEntry, expandEntry]
  | seq items => simp [reduceEntry, expandEntry]
  | bool b => exact set_fresh _ (hfresh rfl)
  | int b => exact set_fresh _ (hfresh rfl)
  | float32 b => exact set_fresh _ (hfresh rfl)
  | float64 b => exact set_fresh _ (hfresh rfl)
  | str b => exact set_fresh _ (hfresh rfl)

theorem foldl_reduceEntry_fresh (ro : RangeOrder) (l tmp : GoMap)
    (h : (keys (tmp ++ l.flatMap (expandEntry ro))).Nodup) :
    l.foldl (reduceEntry ro) tmp = tmp ++ l.flatMap (expandEntry ro) := by
  induction l generalizing tmp with
  | nil => simp
  | cons hd tl ih =>
    have h1 : (keys (tmp ++ expandEntry ro hd)).Nodup := by
      have : (keys ((tmp ++ expandEntry ro hd) ++ tl.flatMap (expandEntry ro))).Nodup := by
        simpa using h
      rw [keys_append] at this
      exact (List.nodup_append.1 this).1
    simp only [List.foldl_cons]
    rw [reduceEntry_fresh ro tmp hd h1, ih]
    · simp
    · simpa using h

/-- Without a clash of keys, the first loop lists what it writes for each visited entry. -/
theorem reduce1D_fresh (ro : RangeOrder) (i : GoMap)
    (h : (keys ((ro.order i).flatMap (expandEntry ro))).Nodup) :
    reduce1D ro i = (ro.order i).flatMap (expandEntry ro) := by
  have := foldl_reduceEntry_fresh ro (ro.order i) [] (by simpa using h)
  simpa [reduce1D] using this

theorem expandEntry_perm (ro : RangeOrder) (kv : Str × Value) :
    (expandEntry ro kv).Perm (expandEntry RangeOrder.listed kv) := by
  obtain ⟨k, v⟩ := kv
  cases v <;> simp [expandEntry, RangeOrder.listed]
  exact (ro.perm _).map _

theorem flatMap_expandEntry_perm (ro : RangeOrder) (i : GoMap) :
    ((ro.order i).flatMap (expandEntry ro)).Perm (i.flatMap (expandEntry RangeOrder.listed)) :=
  ((ro.perm i).flatMap_right _).trans
    (List.Perm.flatMap_left i (fun kv _ => expandEntry_perm ro kv))

theorem leaves_eq_flatMap (m : GoMap) : leaves m = m.flatMap leavesOf := by
  induction m with
  | nil => rfl
  | cons hd tl ih =>
    obtain ⟨k, v⟩ := hd
    simp [leaves, leavesOf, ih]

theorem nodes_eq_flatMap (m : GoMap) : nodes m = m.flatMap nodesOf := by
  induction m with
  | nil => rfl
  | cons hd tl ih =>
    obtain ⟨k, v⟩ := hd
    simp [nodes, nodesOf, ih]

theorem leaves_perm {a b : GoMap} (h : a.Perm b) : (leaves a).Perm (leaves b) := by
  rw [leaves_eq_flatMap, leaves_eq_flatMap]; exact h.flatMap_right _

theorem nodes_perm {a b : GoMap} (h : a.Perm b) : (nodes a).Perm (nodes b) := by
  rw [nodes_eq_flatMap, nodes_eq_flatMap]; exact h.flatMap_right _

theorem dotted_dotted (k k1 a : Str) : dotted (dotted k k1) a = dotted k (dotted k1 a) := by
  simp [dotted]

theorem rekey_rekey (k k1 : Str) (x : Str × Value) :
    rekey (dotted k k1) x = rekey k (rekey k1 x) := by
  simp [rekey, dotted]

theorem leavesOf_rekey (k : Str) (x : Str × Value) :
    leavesOf (rekey k x) = (leavesOf x).map (rekey k) := by
  obtain ⟨k1, v⟩ := x
  by_cases hk : v.kind = Kind.map
  · simp [leavesOf, rekey, hk, ← rekey_rekey]
    intro a b _
    exact dotted_dotted k k1 a
  · simp [leavesOf, rekey, hk]

theorem nodesOf_rekey (k : Str) (x : Str × Value) :
    nodesOf (rekey k x) = (nodesOf x).map (rekey k) := by
  obtain ⟨k1, v⟩ := x
  simp [nodesOf, rekey, ← rekey_rekey]
  intro a b _
  exact dotted_dotted k k1 a

theorem leaves_map_rekey (k : Str) (m : GoMap) :
    leaves (m.map (rekey k)) = (leaves m).map (rekey k) := by
  simp only [leaves_eq_flatMap, List.flatMap_map, List.map_flatMap]
  exact List.flatMap_congr (fun x _ => leavesOf_rekey k x) |>.trans rfl

theorem nodes_map_rekey (k : Str) (m : GoMap) :
    nodes (m.map (rekey k)) = (nodes m).map (rekey k) := by
  simp only [nodes_eq_flatMap, List.flatMap_map, List.map_flatMap]
  exact List.flatMap_congr (fun x _ => nodesOf_rekey k x) |>.trans rfl

theorem leaves_append (a b : GoMap) : leaves (a ++ b) = leaves a ++ leaves b := by
  simp [leaves_eq_flatMap]

theorem nodes_append (a b : GoMap) : nodes (a ++ b) = nodes a ++ nodes b := by
  simp [nodes_eq_flatMap]

theorem leaves_cons (kv : Str × Value) (m : GoMap) : leaves (kv :: m) = leavesOf kv ++ leaves m := by
  simp [leaves_eq_flatMap]

theorem nodes_cons (kv : Str × Value) (m : GoMap) : nodes (kv :: m) = nodesOf kv ++ nodes m := by
  simp [nodes_eq_flatMap]

theorem self_sublist_nodes (m : GoMap) : m.Sublist (nodes m) := by
  induction m with
  | nil => exact List.Sublist.refl _
  | cons hd tl ih =>
    rw [nodes_cons]
    simp only [nodesOf, List.cons_append]
    exact List.Sublist.cons₂ _ ((List.sublist_append_of_sublist_right ih))

theorem leavesOf_of_not_map {kv : Str × Value} (h : kv.2.kind ≠ Kind.map) : leavesOf kv = [kv] := by
  simp [leavesOf, h]

theorem nodesOf_of_not_map {kv : Str × Value} (h : kv.2.kind ≠ Kind.map) : nodesOf kv = [kv] := by
  obtain ⟨k, v⟩ := kv
  cases v <;> simp_all [nodesOf, Value.nodesBelow, Value.kind]

theorem leavesOf_map (k : Str) (m : GoMap) : leavesOf (k, Value.map m) = (leaves m).map (rekey k) := by
  simp [leavesOf, Value.kind, Value.leavesBelow]

theorem nodesOf_map (k : Str) (m : GoMap) :
    nodesOf (k, Value.map m) = (k, Value.map m) :: (nodes m).map (rekey k) := by
  simp [nodesOf, Value.nodesBelow]

theorem kind_ne_map_of_isScalar {v : Value} (h : v.isScalar = true) : v.kind ≠ Kind.map := by
  cases v <;> simp_all [Value.isScalar, Value.kind]

theorem expandEntry_of_isScalar (ro : RangeOrder) {kv : Str × Value} (h : kv.2.isScalar = true) :
    expandEntry ro kv = [kv] := by
  obtain ⟨k, v⟩ := kv
  cases v <;> simp_all [Value.isScalar, expandEntry]

theorem nodes_expandEntry_sublist (kv : Str × Value) :
    (nodes (expandEntry RangeOrder.listed kv)).Sublist (nodesOf kv) := by
  obtain ⟨k, v⟩ := kv
  cases v with
  | map m =>
    rw [nodesOf_map]
    simp only [expandEntry, RangeOrder.listed, nodes_map_rekey]
    exact List.sublist_cons_self _ _
  | null => simp [expandEntry, nodes]
  | seq items => simp [expandEntry, nodes]
  | bool b => simp [expandEntry, nodes, nodesOf, Value.nodesBelow]
  | int b => simp [expandEntry, nodes, nodesOf, Value.nodesBelow]
  | float32 b => simp [expandEntry, nodes, nodesOf, Value.nodesBelow]
  | float64 b => simp [expandEntry, nodes, nodesOf, Value.nodesBelow]
  | str b => simp [expandEntry, nodes, nodesOf, Value.nodesBelow]

/-- The nodes left after a pass are nodes of the mapping the pass started from. -/
theorem nodes_step_sublist (i : GoMap) :
    (nodes (i.flatMap (expandEntry RangeOrder.listed))).Sublist (nodes i) := by
  induction i with
  | nil => simp
  | cons hd tl ih =>
    rw [List.flatMap_cons, nodes_append, nodes_cons]
    exact (nodes_expandEntry_sublist hd).append ih

theorem leaves_expandEntry (kv : Str × Value)
    (h : kv.2.kind ≠ Kind.map → kv.2.isScalar = true) :
    leaves (expandEntry RangeOrder.listed kv) = leavesOf kv := by
  obtain ⟨k, v⟩ := kv
  cases v with
  | map m =>
    rw [leavesOf_map]
    simp only [expandEntry, RangeOrder.listed, leaves_map_rekey]
  | null => simp [Value.kind, Value.isScalar] at h
  | seq items => simp [Value.kind, Value.isScalar] at h
  | bool b => simp [expandEntry, leaves, leavesOf, Value.kind]
  | int b => simp [expandEntry, leaves, leavesOf, Value.kind]
  | float32 b => simp [expandEntry, leaves, leavesOf, Value.kind]
  | float64 b => simp [expandEntry, leaves, leavesOf, Value.kind]
  | str b => simp [expandEntry, leaves, leavesOf, Value.kind]

/-- A pass keeps the leaves and their dotted paths, when the values that are not mappings
are scalars. -/
theorem leaves_step (i : GoMap) (h : ∀ kv ∈ i, kv.2.kind ≠ Kind.map → kv.2.isScalar = true) :
    leaves (i.flatMap (expandEntry RangeOrder.listed)) = leaves i := by
  induction i with
  | nil => simp
  | cons hd tl ih =>
    rw [List.flatMap_cons, leaves_append, leaves_cons,
      leaves_expandEntry hd (h hd (List.mem_cons_self _ _)),
      ih (fun kv hkv => h kv (List.mem_cons_of_mem _ hkv))]

theorem mem_leaves_of_mem {i : GoMap} {kv : Str × Value} (h : kv ∈ i)
    (hk : kv.2.kind ≠ Kind.map) : kv ∈ leaves i := by
  rw [leaves_eq_flatMap, List.mem_flatMap]
  exact ⟨kv, h, by simp [leavesOf_of_not_map hk]⟩

theorem leaves_of_noMap {t : GoMap} (h : noMap t) : leaves t = t := by
  induction t with
  | nil => rfl
  | cons hd tl ih =>
    rw [leaves_cons, leavesOf_of_not_map (h hd (List.mem_cons_self _ _)), ih (noMap_of_cons h)]
    rfl

theorem nodes_of_noMap {t : GoMap} (h : noMap t) : nodes t = t := by
  induction t with
  | nil => rfl
  | cons hd tl ih =>
    rw [nodes_cons, nodesOf_of_not_map (h hd (List.mem_cons_self _ _)), ih (noMap_of_cons h)]
    rfl

theorem leaves_sublist_nodes_aux (n : Nat) :
    ∀ m : GoMap, mapDepth m ≤ n → (leaves m).Sublist (nodes m) := by
  induction n with
  | zero =>
    intro m hm
    have hn : noMap m := noMap_of_mapDepth (by omega)
    rw [leaves_of_noMap hn, nodes_of_noMap hn]
  | succ n ih =>
    intro m
    induction m with
    | nil => intro _; exact List.Sublist.refl _
    | cons hd tl ihl =>
      intro hm
      obtain ⟨k, v⟩ := hd
      have htl : mapDepth tl ≤ n + 1 := by
        simp only [mapDepth] at hm; omega
      rw [leaves_cons, nodes_cons]
      refine List.Sublist.append ?_ (ihl htl)
      by_cases hk : v.kind = Kind.map
      · cases v with
        | map m' =>
          rw [leavesOf_map, nodesOf_map]
          have hm' : mapDepth m' ≤ n := by
            simp only [mapDepth, depth_map] at hm; omega
          exact List.sublist_cons_of_sublist _ ((ih m' hm').map _)
        | _ => simp [Value.kind] at hk
      · rw [leavesOf_of_not_map hk, nodesOf_of_not_map hk]

/-- Every leaf is a node. -/
theorem leaves_sublist_nodes (m : GoMap) : (leaves m).Sublist (nodes m) :=
  leaves_sublist_nodes_aux (mapDepth m) m (Nat.le_refl _)

theorem keys_perm {a b : List (Str × Value)} (h : a.Perm b) : (keys a).Perm (keys b) := h.map _

theorem keys_sublist {a b : List (Str × Value)} (h : a.Sublist b) : (keys a).Sublist (keys b) :=
  h.map _

theorem noMap_of_scalars {r : GoMap} (h : ∀ x ∈ r, x.2.isScalar = true) : noMap r :=
  fun x hx => kind_ne_map_of_isScalar (h x hx)

/-- The flattener on a mapping whose leaves are scalars and whose nodes have distinct dotted
paths: it returns, and its result lists the leaves with their dotted paths. -/
theorem convertMapTo1DMap_leaves (ro : RangeOrder) (fuel : Nat) (i : GoMap)
    (hd : mapDepth i < fuel) (hs : scalarLeaves i) (hn : (keys (nodes i)).Nodup) :
    ∃ r, convertMapTo1DMap ro fuel i = some r ∧ r.Perm (leaves i) := by
  induction fuel generalizing i with
  | zero => omega
  | succ fuel ih =>
    rw [convertMapTo1DMap_succ]
    have hdep := mapDepth_reduce1D ro i
    have hXn : (keys (i.flatMap (expandEntry RangeOrder.listed))).Nodup :=
      (hn.sublist (keys_sublist (nodes_step_sublist i))).sublist
        (keys_sublist (self_sublist_nodes _))
    have hperm0 := flatMap_expandEntry_perm ro i
    have htmp : reduce1D ro i = (ro.order i).flatMap (expandEntry ro) :=
      reduce1D_fresh ro i ((keys_perm hperm0).nodup_iff.2 hXn)
    have htmpX : (reduce1D ro i).Perm (i.flatMap (expandEntry RangeOrder.listed)) :=
      htmp ▸ hperm0
    have hstep : leaves (i.flatMap (expandEntry RangeOrder.listed)) = leaves i :=
      leaves_step i (fun kv hkv hk => hs kv (mem_leaves_of_mem hkv hk))
    have hleaves : (leaves (reduce1D ro i)).Perm (leaves i) := hstep ▸ leaves_perm htmpX
    have hnodes : (keys (nodes (reduce1D ro i))).Nodup :=
      (keys_perm (nodes_perm htmpX)).nodup_iff.2
        (hn.sublist (keys_sublist (nodes_step_sublist i)))
    obtain ⟨r, hr, hcase⟩ := secondLoop_inv ro fuel
      (fun j => mapDepth j < fuel ∧ scalarLeaves j ∧ (keys (nodes j)).Nodup ∧
        (leaves j).Perm (leaves i))
      (fun j hj => by
        obtain ⟨hj1, hj2, hj3, hj4⟩ := hj
        obtain ⟨r, hr, hperm⟩ := ih j hj1 hj2 hj3
        have hsc : ∀ x ∈ r, x.2.isScalar = true := fun x hx => hj2 x (hperm.mem_iff.1 hx)
        have hnm : noMap r := noMap_of_scalars hsc
        have h0 := mapDepth_eq_zero hnm
        refine ⟨r, hr, ⟨by omega, ?_, ?_, ?_⟩, hnm⟩
        · intro x hx
          rw [leaves_of_noMap hnm] at hx
          exact hsc x hx
        · rw [nodes_of_noMap hnm]
          exact (keys_perm hperm).nodup_iff.2
            (hj3.sublist (keys_sublist (leaves_sublist_nodes j)))
        · rw [leaves_of_noMap hnm]
          exact hperm.trans hj4)
      (ro.order (reduce1D ro i)) (reduce1D ro i)
      (fun hnl => by
        have h1 : ¬ noMap (reduce1D ro i) := fun h' => hnl (noMap_perm (ro.perm _).symm h')
        have h2 : mapDepth (reduce1D ro i) ≠ 0 := fun h' => h1 (noMap_of_mapDepth h')
        refine ⟨by omega, ?_, hnodes, hleaves⟩
        intro x hx
        exact hs x (hleaves.mem_iff.1 hx))
    refine ⟨r, hr, ?_⟩
    rcases hcase with ⟨h1, h2⟩ | ⟨h1, h2⟩
    · have hnm : noMap (reduce1D ro i) := noMap_perm (ro.perm _) h2
      rw [h1]
      rw [leaves_of_noMap hnm] at hleaves
      exact hleaves
    · have := h1.2.2.2
      rw [leaves_of_noMap h2] at this
      exact this

/-! ## Facts on the substitution engine -/

theorem takeWhile_append_of_stop {p : Char → Bool} (a b : Str) (c : Char)
    (ha : ∀ x ∈ a, p x = true) (hc : p c = false) :
    (a ++ c :: b).takeWhile p = a ∧ (a ++ c :: b).dropWhile p = c :: b := by
  induction a with
  | nil => simp [List.takeWhile, List.dropWhile, hc]
  | cons hd tl ih =>
    have h1 : p hd = true := ha hd (List.mem_cons_self _ _)
    have := ih (fun x hx => ha x (List.mem_cons_of_mem _ hx))
    simp [List.takeWhile, List.dropWhile, h1, this]

theorem stripPrefix_append (p r : Str) : stripPrefix p (p ++ r) = some r := by
  induction p with
  | nil => rfl
  | cons hd tl ih => simp [stripPrefix, ih]

theorem stripPrefix_some {p s r : Str} (h : stripPrefix p s = some r) : s = p ++ r := by
  induction p generalizing s with
  | nil => simpa [stripPrefix] using h
  | cons hd tl ih =>
    cases s with
    | nil => simp [stripPrefix] at h
    | cons c t =>
      simp only [stripPrefix] at h
      split at h
      · next heq => rw [heq, ih h]; rfl
      · simp at h

/-- The pattern matches a token made of class characters. -/
theorem matchPlaceholder_token (id rest : Str) (hne : id ≠ [])
    (hid : ∀ c ∈ id, identChar c = true) :
    matchPlaceholder (token id ++ rest) = some (id, rest) := by
  obtain ⟨h1, h2⟩ := takeWhile_append_of_stop id ('}' :: rest) '}' hid (by decide)
  have hs : stripPrefix ['{', '{'] (token id ++ rest) = some (id ++ '}' :: '}' :: rest) := by
    have := stripPrefix_append ['{', '{'] (id ++ '}' :: '}' :: rest)
    simpa [token] using this
  have hs2 : stripPrefix ['}', '}'] ('}' :: '}' :: rest) = some rest :=
    stripPrefix_append ['}', '}'] rest
  simp only [matchPlaceholder, hs, h1, h2, hs2, if_neg hne]

/-- What a match of the pattern is: a token made of class characters, not empty. -/
theorem matchPlaceholder_some {s id rest : Str} (h : matchPlaceholder s = some (id, rest)) :
    s = token id ++ rest ∧ id ≠ [] ∧ ∀ c ∈ id, identChar c = true := by
  unfold matchPlaceholder at h
  split at h
  · simp at h
  · next t ht =>
    split at h
    · simp at h
    · next hne =>
      split at h
      · simp at h
      · next rest' hr =>
        simp only [Option.some.injEq, Prod.mk.injEq] at h
        obtain ⟨hid, hrest⟩ := h
        subst hrest
        have htd := List.takeWhile_append_dropWhile identChar t
        rw [stripPrefix_some hr, hid] at htd
        refine ⟨?_, hid ▸ hne, ?_⟩
        · rw [stripPrefix_some ht, ← htd]
          simp [token]
        · intro x hx
          rw [← hid] at hx
          exact List.mem_takeWhile_imp hx

theorem render_append (a b : List Seg) : render (a ++ b) = render a ++ render b := by
  induction a with
  | nil => rfl
  | cons hd tl ih => cases hd <;> simp [render, ih]

theorem render_map_lit (s : Str) : render (s.map Seg.lit) = s := by
  induction s with
  | nil => rfl
  | cons hd tl ih => simp [render, ih]

theorem token_length (id : Str) : (token id).length = id.length + 4 := by
  simp [token]

theorem findAllAux_eq_segments (n : Nat) (s : Str) :
    findAllAux n s = (tokenIds (segmentsAux n s)).map (fun id => [token id, id]) := by
  induction n generalizing s with
  | zero => rfl
  | succ n ih =>
    cases s with
    | nil => rfl
    | cons c t =>
      simp only [findAllAux, segmentsAux]
      cases h : matchPlaceholder (c :: t) with
      | none => simp [tokenIds, ih]
      | some p => obtain ⟨id, rest⟩ := p; simp [tokenIds, ih]

/-- The matches are the tokens of the cut of the text, in order. -/
theorem findAllStringSubmatch_eq (body : Str) :
    findAllStringSubmatch body = (tokenIds (segments body)).map (fun id => [token id, id]) :=
  findAllAux_eq_segments _ _

theorem render_segmentsAux (n : Nat) (s : Str) (h : s.length ≤ n) :
    render (segmentsAux n s) = s := by
  induction n generalizing s with
  | zero =>
    have : s = [] := List.length_eq_zero.1 (by omega)
    subst this; rfl
  | succ n ih =>
    cases s with
    | nil => rfl
    | cons c t =>
      simp only [segmentsAux]
      cases hm : matchPlaceholder (c :: t) with
      | none =>
        simp only [render]
        rw [ih t (by simpa using h)]
      | some p =>
        obtain ⟨id, rest⟩ := p
        obtain ⟨hs, _, _⟩ := matchPlaceholder_some hm
        simp only [render]
        have hl : rest.length ≤ n := by
          have := congrArg List.length hs
          simp [token] at this h
          omega
        rw [ih rest hl, hs]

/-- The cut of a text gives the text back. -/
theorem render_segments (body : Str) : render (segments body) = body :=
  render_segmentsAux _ _ (Nat.le_refl _)

theorem segmentsAux_tok (n : Nat) (s : Str) :
    ∀ id, Seg.tok id ∈ segmentsAux n s → id ≠ [] ∧ ∀ c ∈ id, identChar c = true := by
  induction n generalizing s with
  | zero => intro id h; simp [segmentsAux] at h
  | succ n ih =>
    cases s with
    | nil => intro id h; simp [segmentsAux] at h
    | cons c t =>
      intro id h
      simp only [segmentsAux] at h
      cases hm : matchPlaceholder (c :: t) with
      | none =>
        rw [hm] at h
        simp only [List.mem_cons] at h
        rcases h with h | h
        · cases h
        · exact ih t id h
      | some p =>
        obtain ⟨id', rest⟩ := p
        rw [hm] at h
        simp only [List.mem_cons, Seg.tok.injEq] at h
        rcases h with h | h
        · subst h; exact (matchPlaceholder_some hm).2
        · exact ih rest id h

theorem mem_tokenIds {segs : List Seg} {id : Str} : id ∈ tokenIds segs ↔ Seg.tok id ∈ segs := by
  induction segs with
  | nil => simp [tokenIds]
  | cons hd tl ih => cases hd <;> simp [tokenIds, ih]

theorem identChar_not_open {c : Char} (h : identChar c = true) : c ≠ '{' := by
  intro e; subst e; simp [identChar] at h

theorem identChar_not_close {c : Char} (h : identChar c = true) : c ≠ '}' := by
  intro e; subst e; simp [identChar] at h

theorem stringsContains_token (id : Str) : stringsContains (token id) ['{', '{'] = true := by
  simp [token, stringsContains, List.isPrefixOf]

theorem stringsContains_ident {id : Str} (h : ∀ c ∈ id, c ≠ '{') :
    stringsContains id ['{', '{'] = false := by
  induction id with
  | nil => rfl
  | cons hd tl ih =>
    have h1 : hd ≠ '{' := h hd (List.mem_cons_self _ _)
    have h2 : ('{' == hd) = false := by simpa using fun e => h1 e.symm
    simp only [stringsContains, List.isPrefixOf, h2, Bool.false_and, Bool.false_or]
    exact ih (fun c hc => h c (List.mem_cons_of_mem _ hc))

/-- The inner loop on a match: the whole match is passed over, group 1 is looked up. -/
theorem foldlM_match (L : GoLib) (cfg : GoMap) (t id : Str) :
    [token id, id].foldlM (replaceVar L cfg) t = replaceVar L cfg t id := by
  have h1 : replaceVar L cfg t (token id) = .ok t := by
    simp [replaceVar, stringsContains_token]
  simp only [List.foldlM_cons, List.foldlM_nil, h1]
  show (replaceVar L cfg t id >>= fun b => pure b) = _
  cases replaceVar L cfg t id <;> rfl

/-- The two loops of `replaceVarsByValues` look up, in order, the identifiers of the tokens
matched in the text. -/
theorem replaceVarsByValues_eq (L : GoLib) (cfg : GoMap) (body : Str) :
    replaceVarsByValues L cfg body = (tokenIds (segments body)).foldlM (replaceVar L cfg) body := by
  unfold replaceVarsByValues
  rw [findAllStringSubmatch_eq, List.foldlM_map]
  congr 1
  funext t id
  exact foldlM_match L cfg t id

theorem expandAux_plain (L : GoLib) (matched : Str) (n : Nat) (s : Str) (hn : s.length ≤ n)
    (h : ∀ c ∈ s, c ≠ '$') : expandAux L matched n s = s := by
  induction n generalizing s with
  | zero =>
    have : s = [] := List.length_eq_zero.1 (by omega)
    subst this; rfl
  | succ n ih =>
    cases s with
    | nil => rfl
    | cons c t =>
      have hc : c ≠ '$' := h c (List.mem_cons_self _ _)
      simp only [expandAux, if_neg hc]
      rw [ih t (by simpa using hn) (fun x hx => h x (List.mem_cons_of_mem _ hx))]

/-- A template without `$` stands for itself. -/
theorem expand_plain (L : GoLib) (repl matched : Str) (h : ∀ c ∈ repl, c ≠ '$') :
    expand L repl matched = repl :=
  expandAux_plain L matched _ repl (Nat.le_refl _) h

theorem accepts_ofChar (c : Char) : (Atom.ofChar c).accepts c = true := by
  unfold Atom.ofChar
  split
  · next h => subst h; decide
  · simp [Atom.accepts]

theorem matchAtoms_cons (a : Atom) (p : List Atom) (c : Char) (t : Str) :
    matchAtoms (a :: p) (c :: t)
      = if a.accepts c then (matchAtoms p t).map (fun mr => (c :: mr.1, mr.2)) else none := rfl

theorem matchAtoms_self (el : Str) (tl : List Atom) (r : Str) :
    matchAtoms (el.map Atom.ofChar ++ tl) (el ++ r)
      = (matchAtoms tl r).map (fun mr => (el ++ mr.1, mr.2)) := by
  induction el with
  | nil =>
    simp only [List.map_nil, List.nil_append]
    cases matchAtoms tl r <;> rfl
  | cons hd t ih =>
    rw [List.map_cons, List.cons_append, List.cons_append, matchAtoms_cons, accepts_ofChar,
      if_pos rfl, ih]
    cases matchAtoms tl r <;> rfl

/-- The expression of a plain identifier matches the token of that identifier. -/
theorem matchAtoms_token (el r : Str) :
    matchAtoms (identPattern el) (token el ++ r) = some (token el, r) := by
  have h := matchAtoms_self el [Atom.lit '}', Atom.lit '}'] ('}' :: '}' :: r)
  have h2 : matchAtoms [Atom.lit '}', Atom.lit '}'] ('}' :: '}' :: r) = some (['}', '}'], r) := by
    simp [matchAtoms, Atom.accepts]
  rw [h2] at h
  have h3 : token el ++ r = '{' :: '{' :: (el ++ '}' :: '}' :: r) := by simp [token]
  rw [h3, identPattern, matchAtoms_cons, matchAtoms_cons, h]
  simp [Atom.accepts, token]

theorem append_stop_inj {c : Char} (a b x y : Str) (ha : c ∉ a) (hb : c ∉ b)
    (h : a ++ c :: x = b ++ c :: y) : a = b := by
  induction a generalizing b with
  | nil =>
    cases b with
    | nil => rfl
    | cons hd tl =>
      simp only [List.nil_append, List.cons_append, List.cons.injEq] at h
      exact absurd (h.1 ▸ List.mem_cons_self _ _) hb
  | cons hd tl ih =>
    cases b with
    | nil =>
      simp only [List.nil_append, List.cons_append, List.cons.injEq] at h
      exact absurd (h.1 ▸ List.mem_cons_self _ _) ha
    | cons hd' tl' =>
      simp only [List.cons_append, List.cons.injEq] at h
      rw [h.1, ih tl' (fun hm => ha (List.mem_cons_of_mem _ hm))
        (fun hm => hb (List.mem_cons_of_mem _ hm)) h.2]

theorem matchAtoms_lits {X s m r : Str} (h : matchAtoms (X.map Atom.lit) s = some (m, r)) :
    s = X ++ r ∧ m = X := by
  induction X generalizing s m r with
  | nil => simp [matchAtoms] at h; simp [h.1, h.2]
  | cons hd tl ih =>
    cases s with
    | nil => simp [matchAtoms] at h
    | cons c t =>
      simp only [List.map_cons, matchAtoms, Atom.accepts] at h
      split at h
      · next hc =>
        have hc' : hd = c := by simpa using hc
        cases hm : matchAtoms (tl.map Atom.lit) t with
        | none => simp [hm] at h
        | some p =>
          obtain ⟨m', r'⟩ := p
          rw [hm] at h
          simp only [Option.map_some', Option.some.injEq, Prod.mk.injEq] at h
          obtain ⟨h1, h2⟩ := ih hm
          subst hc'
          rw [h1, ← h.1, h2, ← h.2]
          simp
      · simp at h

theorem identPattern_literal {el : Str} (h : literalIdent el) :
    identPattern el = (token el).map Atom.lit := by
  have : el.map Atom.ofChar = el.map Atom.lit := by
    apply List.map_congr_left
    intro c hc
    have hm := h c hc
    have : c ≠ '.' := by intro e; subst e; simp [regexMeta] at hm
    simp [Atom.ofChar, this]
  simp [identPattern, token, this]

theorem not_close_of_literal {el : Str} (h : literalIdent el) : '}' ∉ el := by
  intro hm
  have := h _ hm
  simp [regexMeta] at this

/-- The expression of an identifier without metacharacter does not match the token of
another identifier. -/
theorem matchAtoms_other_token {el id : Str} (r : Str) (hel : literalIdent el)
    (hid : ∀ c ∈ id, identChar c = true) (hne : id ≠ el) :
    matchAtoms (identPattern el) (token id ++ r) = none := by
  rw [identPattern_literal hel]
  cases hm : matchAtoms ((token el).map Atom.lit) (token id ++ r) with
  | none => rfl
  | some p =>
    obtain ⟨m, r'⟩ := p
    obtain ⟨h1, _⟩ := matchAtoms_lits hm
    exfalso
    apply hne
    have h2 : id ++ '}' :: ('}' :: r) = el ++ '}' :: ('}' :: r') := by
      simpa [token] using h1
    exact append_stop_inj id el _ _ (fun hm => identChar_not_close (hid _ hm) rfl)
      (not_close_of_literal hel) h2

theorem replaceAllAux_none (L : GoLib) {pat : List Atom} (repl : Str) (n : Nat) {c : Char}
    {t : Str} (h : matchAtoms pat (c :: t) = none) :
    replaceAllAux L pat repl (n + 1) (c :: t) = c :: replaceAllAux L pat repl n t := by
  simp only [replaceAllAux, h]

theorem replaceAllAux_some (L : GoLib) {pat : List Atom} (repl : Str) (n : Nat) {c : Char}
    {t m rest : Str} (h : matchAtoms pat (c :: t) = some (m, rest)) :
    replaceAllAux L pat repl (n + 1) (c :: t)
      = expand L repl m ++ replaceAllAux L pat repl n rest := by
  simp only [replaceAllAux, h]

theorem matchAtoms_not_open (el : Str) {c : Char} (t : Str) (h : c ≠ '{') :
    matchAtoms (identPattern el) (c :: t) = none := by
  have : ¬ ('{' = c) := fun e => h e.symm
  simp [identPattern, matchAtoms_cons, Atom.accepts, this]

theorem matchAtoms_open_not_open (el : Str) {c : Char} (t : Str) (h : c ≠ '{') :
    matchAtoms (identPattern el) ('{' :: c :: t) = none := by
  have : ¬ ('{' = c) := fun e => h e.symm
  simp [identPattern, matchAtoms_cons, Atom.accepts, this]

theorem replaceAllAux_skip (L : GoLib) (el repl : Str) (pre r : Str) (n : Nat)
    (h : ∀ c ∈ pre, c ≠ '{') :
    replaceAllAux L (identPattern el) repl (pre.length + n) (pre ++ r)
      = pre ++ replaceAllAux L (identPattern el) repl n r := by
  induction pre with
  | nil => simp
  | cons hd tl ih =>
    have h1 := matchAtoms_not_open el (tl ++ r) (h hd (List.mem_cons_self _ _))
    have : (hd :: tl).length + n = (tl.length + n) + 1 := by simp; omega
    rw [this, List.cons_append, replaceAllAux_none L repl _ h1,
      ih (fun c hc => h c (List.mem_cons_of_mem _ hc))]
    rfl

/-- The scan passes over the token of another identifier. -/
theorem replaceAllAux_other_token (L : GoLib) {el id : Str} (repl r : Str) (n : Nat)
    (hel : literalIdent el) (hne : id ≠ []) (hid : ∀ c ∈ id, identChar c = true)
    (hdiff : id ≠ el) :
    replaceAllAux L (identPattern el) repl ((token id).length + n) (token id ++ r)
      = token id ++ replaceAllAux L (identPattern el) repl n r := by
  have h0 := matchAtoms_other_token r hel hid hdiff
  cases id with
  | nil => exact absurd rfl hne
  | cons c cs =>
    have hc : c ≠ '{' := identChar_not_open (hid c (List.mem_cons_self _ _))
    have hpre : ∀ x ∈ c :: (cs ++ ['}', '}']), x ≠ '{' := by
      intro x hx
      simp only [List.mem_cons, List.mem_append, List.mem_singleton] at hx
      rcases hx with hx | hx | hx | hx | hx
      · exact hx ▸ hc
      · exact identChar_not_open (hid x (List.mem_cons_of_mem _ hx))
      · subst hx; decide
      · subst hx; decide
      · simp at hx
    have hskip := replaceAllAux_skip L el repl (c :: (cs ++ ['}', '}'])) r n hpre
    have e1 : token (c :: cs) ++ r = '{' :: '{' :: ((c :: (cs ++ ['}', '}'])) ++ r) := by
      simp [token]
    have e2 : (token (c :: cs)).length + n = ((c :: (cs ++ ['}', '}'])).length + n) + 1 + 1 := by
      simp [token]; omega
    have h1 : matchAtoms (identPattern el) ('{' :: '{' :: ((c :: (cs ++ ['}', '}'])) ++ r)) = none := by
      rw [← e1]; exact h0
    have h2 : matchAtoms (identPattern el) ('{' :: ((c :: (cs ++ ['}', '}'])) ++ r)) = none :=
      matchAtoms_open_not_open el _ hc
    rw [e1, e2, replaceAllAux_none L repl _ h1, replaceAllAux_none L repl _ h2, hskip]
    simp [token]

/-- One `ReplaceAllString`, on a text cut into clean pieces: the tokens of the identifier
are replaced, nothing else changes. -/
theorem replaceAllAux_render (L : GoLib) (el s0 : Str) (hel : literalIdent el)
    (hs0 : ∀ c ∈ s0, c ≠ '$') (segs : List Seg) (hclean : ∀ seg ∈ segs, seg.clean) (n : Nat)
    (hn : (render segs).length ≤ n) :
    replaceAllAux L (identPattern el) s0 n (render segs)
      = render (segs.flatMap (replaceTok el s0)) := by
  induction segs generalizing n with
  | nil =>
    cases n <;> rfl
  | cons hd tl ih =>
    have htl : ∀ seg ∈ tl, seg.clean := fun seg h => hclean seg (List.mem_cons_of_mem _ h)
    have hhd := hclean hd (List.mem_cons_self _ _)
    cases hd with
    | lit c =>
      have hc : c ≠ '{' := hhd
      simp only [render, List.length_cons] at hn
      obtain ⟨n', rfl⟩ : ∃ n', n = n' + 1 := ⟨n - 1, by omega⟩
      rw [List.flatMap_cons, render_append]
      show replaceAllAux L (identPattern el) s0 (n' + 1) (c :: render tl) = c :: _
      rw [replaceAllAux_none L s0 _ (matchAtoms_not_open el _ hc), ih htl n' (by omega)]
      rfl
    | tok id =>
      obtain ⟨hne, hid⟩ : id ≠ [] ∧ ∀ c ∈ id, identChar c = true := hhd
      simp only [render, List.length_append] at hn
      by_cases hdiff : id = el
      · subst hdiff
        obtain ⟨n', rfl⟩ : ∃ n', n = n' + 1 := ⟨n - 1, by rw [token_length] at hn; omega⟩
        have hm := matchAtoms_token id (render tl)
        have e1 : token id ++ render tl = '{' :: ('{' :: (id ++ ['}', '}']) ++ render tl) := rfl
        rw [e1] at hm
        rw [List.flatMap_cons, render_append]
        have e2 : render (replaceTok id s0 (Seg.tok id)) = s0 := by
          simp [replaceTok, render_map_lit]
        rw [e2]
        show replaceAllAux L (identPattern id) s0 (n' + 1) (token id ++ render tl) = _
        rw [e1, replaceAllAux_some L s0 _ hm, expand_plain L s0 _ hs0,
          ih htl n' (by rw [token_length] at hn; omega)]
      · obtain ⟨n', rfl⟩ : ∃ n', n = (token id).length + n' := ⟨n - (token id).length, by omega⟩
        rw [List.flatMap_cons, render_append]
        have e2 : render (replaceTok el s0 (Seg.tok id)) = token id := by
          simp [replaceTok, hdiff, render]
        rw [e2]
        show replaceAllAux L (identPattern el) s0 _ (token id ++ render tl) = _
        rw [replaceAllAux_other_token L s0 _ _ hel hne hid hdiff, ih htl n' (by omega)]

theorem mustCompile_plain (L : GoLib) {el : Str} (h : plainIdent el = true) :
    mustCompile L el = .ok (Regexp.atoms (identPattern el)) := by
  simp only [mustCompile, h, if_true]

theorem plainIdent_of_literal {el : Str} (h : literalIdent el) : plainIdent el = true := by
  simp only [plainIdent, List.all_eq_true]
  intro c hc
  simp [h c hc]

theorem not_open_of_plain {el : Str} (h : plainIdent el = true) : ∀ c ∈ el, c ≠ '{' := by
  intro c hc e
  subst e
  simp only [plainIdent, List.all_eq_true] at h
  have := h _ hc
  simp [regexMeta] at this

/-- The lookup of a plain identifier that is a key with a value of a supported kind: the
running text goes through `ReplaceAllString`. -/
theorem replaceVar_plain (L : GoLib) (cfg : GoMap) (t : Str) {id : Str} {v : Value} {s : Str}
    (hplain : plainIdent id = true) (hget : cfg.get id = some v)
    (hs : convertTypeToString L v = .ok s) :
    replaceVar L cfg t id = .ok (replaceAllAux L (identPattern id) s t.length t) := by
  simp only [replaceVar, stringsContains_ident (not_open_of_plain hplain), hget,
    mustCompile_plain L hplain, hs, Regexp.replaceAllString]
  rfl

theorem stringForm_eq (L : GoLib) {cfg : GoMap} {id : Str} {v : Value} {s : Str}
    (hget : cfg.get id = some v) (hs : convertTypeToString L v = .ok s) :
    stringForm L cfg id = s := by
  simp [stringForm, hget, hs]

theorem flatMap_lit_replaceTok (el s0 s : Str) :
    (s.map Seg.lit).flatMap (replaceTok el s0) = s.map Seg.lit := by
  induction s with
  | nil => rfl
  | cons hd tl ih => simp [List.flatMap_cons, replaceTok, ih]

theorem substSeg_replaceTok (L : GoLib) (cfg : GoMap) (S : List Str) (el : Str) (seg : Seg) :
    (substSeg L cfg S seg).flatMap (replaceTok el (stringForm L cfg el))
      = substSeg L cfg (el :: S) seg := by
  cases seg with
  | lit c => simp [substSeg, replaceTok]
  | tok id =>
    by_cases hS : id ∈ S
    · simp [substSeg, hS, flatMap_lit_replaceTok]
    · by_cases he : id = el
      · subst he
        simp [substSeg, hS, replaceTok]
      · simp [substSeg, hS, he, replaceTok]

theorem flatMap_substSeg_replaceTok (L : GoLib) (cfg : GoMap) (S : List Str) (el : Str)
    (segs : List Seg) :
    (segs.flatMap (substSeg L cfg S)).flatMap (replaceTok el (stringForm L cfg el))
      = segs.flatMap (substSeg L cfg (el :: S)) := by
  rw [List.flatMap_assoc]
  exact List.flatMap_congr (fun seg _ => substSeg_replaceTok L cfg S el seg)

theorem substSeg_nil (L : GoLib) (cfg : GoMap) (segs : List Seg) :
    segs.flatMap (substSeg L cfg []) = segs := by
  induction segs with
  | nil => rfl
  | cons hd tl ih => cases hd <;> simp [List.flatMap_cons, substSeg, ih]

theorem render_substSeg_all (L : GoLib) (cfg : GoMap) (S : List Str) (segs : List Seg)
    (h : ∀ id, Seg.tok id ∈ segs → id ∈ S) :
    render (segs.flatMap (substSeg L cfg S)) = substituteAll L cfg segs := by
  induction segs with
  | nil => rfl
  | cons hd tl ih =>
    have ih' := ih (fun id hid => h id (List.mem_cons_of_mem _ hid))
    rw [List.flatMap_cons, render_append, ih']
    cases hd with
    | lit c => rfl
    | tok id =>
      have := h id (List.mem_cons_self _ _)
      simp [substSeg, this, render_map_lit, substituteAll]

theorem clean_substSeg (L : GoLib) (cfg : GoMap) (S : List Str) (segs : List Seg)
    (hclean : ∀ seg ∈ segs, seg.clean)
    (hval : ∀ id ∈ S, ∀ c ∈ stringForm L cfg id, c ≠ '{') :
    ∀ seg ∈ segs.flatMap (substSeg L cfg S), seg.clean := by
  intro seg hseg
  rw [List.mem_flatMap] at hseg
  obtain ⟨seg0, h0, h1⟩ := hseg
  cases seg0 with
  | lit c =>
    simp only [substSeg, List.mem_singleton] at h1
    exact h1 ▸ hclean _ h0
  | tok id =>
    by_cases hS : id ∈ S
    · simp only [substSeg, hS, if_true, List.mem_map] at h1
      obtain ⟨c, hc, rfl⟩ := h1
      exact hval id hS c hc
    · simp only [substSeg, hS, if_false, List.mem_singleton] at h1
      exact h1 ▸ hclean _ h0

/-- The outer loop on clean pieces: after the identifiers of `l`, their tokens are replaced. -/
theorem foldlM_replaceVar (L : GoLib) (cfg : GoMap) (segs : List Seg)
    (hclean : ∀ seg ∈ segs, seg.clean) (l S : List Str)
    (hl : ∀ id ∈ l, substitutable L cfg id) (hS : ∀ id ∈ S, substitutable L cfg id) :
    l.foldlM (replaceVar L cfg) (render (segs.flatMap (substSeg L cfg S)))
      = .ok (render (segs.flatMap (substSeg L cfg (l.reverse ++ S)))) := by
  induction l generalizing S with
  | nil => rfl
  | cons id tl ih =>
    obtain ⟨hlit, v, s, hget, hs, hval⟩ := hl id (List.mem_cons_self _ _)
    have hsf := stringForm_eq L hget hs
    have hSval : ∀ id ∈ S, ∀ c ∈ stringForm L cfg id, c ≠ '{' := by
      intro id' hid' c hc
      obtain ⟨_, v', s', hget', hs', hval'⟩ := hS id' hid'
      rw [stringForm_eq L hget' hs'] at hc
      exact (hval' c hc).2
    have hstep := replaceVar_plain L cfg (render (segs.flatMap (substSeg L cfg S)))
      (plainIdent_of_literal hlit) hget hs
    rw [replaceAllAux_render L id s hlit (fun c hc => (hval c hc).1) _
      (clean_substSeg L cfg S segs hclean hSval) _ (Nat.le_refl _), ← hsf,
      flatMap_substSeg_replaceTok] at hstep
    rw [List.foldlM_cons, hstep]
    have := ih (id :: S) (fun x hx => hl x (List.mem_cons_of_mem _ hx))
      (by
        intro x hx
        rcases List.mem_cons.1 hx with hx | hx
        · exact hx ▸ ⟨hlit, v, s, hget, hs, hval⟩
        · exact hS x hx)
    simp only [List.reverse_cons, List.append_assoc, List.singleton_append]
    exact this

/-- Simultaneous substitution, for a text whose characters outside the tokens are not `{`
and whose identifiers are all substitutable. -/
theorem replaceVarsByValues_substituteAll (L : GoLib) (cfg : GoMap) (body : Str)
    (hid : ∀ id ∈ tokenIds (segments body), substitutable L cfg id)
    (hlit : ∀ c, Seg.lit c ∈ segments body → c ≠ '{') :
    replaceVarsByValues L cfg body = .ok (substituteAll L cfg (segments body)) := by
  have hclean : ∀ seg ∈ segments body, seg.clean := by
    intro seg hseg
    cases seg with
    | lit c => exact hlit c hseg
    | tok id => exact segmentsAux_tok _ _ id hseg
  have h := foldlM_replaceVar L cfg (segments body) hclean (tokenIds (segments body)) [] hid
    (by intro id h; simp at h)
  rw [substSeg_nil, render_segments] at h
  rw [replaceVarsByValues_eq, h, List.append_nil,
    render_substSeg_all L cfg _ _ (fun id hid' => by
      rw [List.mem_reverse]; exact mem_tokenIds.2 hid')]

theorem get_mem {cfg : GoMap} {id : Str} {v : Value} (h : cfg.get id = some v) : (id, v) ∈ cfg := by
  induction cfg with
  | nil => simp [GoMap.get] at h
  | cons hd tl ih =>
    obtain ⟨k, w⟩ := hd
    simp only [GoMap.get] at h
    split at h
    · next hk =>
      simp only [Option.some.injEq] at h
      rw [hk, h]; exact List.mem_cons_self _ _
    · exact List.mem_cons_of_mem _ (ih h)

theorem convertTypeToString_of_isScalar (L : GoLib) {v : Value} (h : v.isScalar = true) :
    ∃ s, convertTypeToString L v = .ok s := by
  cases v <;> simp_all [Value.isScalar, convertTypeToString]

theorem regexMeta_of_nameChar (L : GoLib) {c : Char} (h : nameChar L c = true) :
    regexMeta c = false := by
  cases hm : regexMeta c with
  | false => rfl
  | true =>
    exfalso
    simp only [regexMeta, Bool.or_eq_true, decide_eq_true_eq] at hm
    rcases hm with ((((((((((((hm | hm) | hm) | hm) | hm) | hm) | hm) | hm) | hm) | hm) | hm) | hm) | hm) | hm <;>
      · subst hm
        revert h
        simp [nameChar]

theorem replaceVar_absent (L : GoLib) (cfg : GoMap) (t : Str) {id : Str}
    (hid : ∀ c ∈ id, c ≠ '{') (hget : cfg.get id = none) :
    replaceVar L cfg t id = .error (Panic.variableNotFound id) := by
  simp only [replaceVar, stringsContains_ident hid, hget]
  rfl

/-- A matched identifier that is not a key makes the substitution fail, whatever happens
for the identifiers matched before it. -/
theorem foldlM_replaceVar_absent (L : GoLib) (cfg : GoMap) (l : List Str)
    (hl : ∀ id ∈ l, ∀ c ∈ id, c ≠ '{') (habs : ∃ id ∈ l, cfg.get id = none) (t : Str) :
    ∃ p, l.foldlM (replaceVar L cfg) t = .error p := by
  induction l generalizing t with
  | nil => obtain ⟨id, hid, _⟩ := habs; simp at hid
  | cons hd tl ih =>
    rw [List.foldlM_cons]
    cases hstep : replaceVar L cfg t hd with
    | error p => exact ⟨p, rfl⟩
    | ok t' =>
      obtain ⟨id, hid, hget⟩ := habs
      rcases List.mem_cons.1 hid with h | h
      · subst h
        rw [replaceVar_absent L cfg t (hl id (List.mem_cons_self _ _)) hget] at hstep
        cases hstep
      · exact ih (fun x hx => hl x (List.mem_cons_of_mem _ hx)) ⟨id, h, hget⟩ t'

/-- The failure names the first identifier that is not a key, when the identifiers matched
before it are plain and have scalar values. -/
theorem foldlM_replaceVar_first_absent (L : GoLib) (cfg : GoMap) (pre : List Str) (id : Str)
    (post : List Str) (hid : ∀ c ∈ id, c ≠ '{') (hget : cfg.get id = none)
    (hpre : ∀ x ∈ pre, plainIdent x = true ∧ ∃ v, cfg.get x = some v ∧ v.isScalar = true)
    (t : Str) :
    (pre ++ id :: post).foldlM (replaceVar L cfg) t = .error (Panic.variableNotFound id) := by
  induction pre generalizing t with
  | nil =>
    rw [List.nil_append, List.foldlM_cons, replaceVar_absent L cfg t hid hget]
    rfl
  | cons hd tl ih =>
    obtain ⟨hplain, v, hv, hsc⟩ := hpre hd (List.mem_cons_self _ _)
    obtain ⟨s, hs⟩ := convertTypeToString_of_isScalar L hsc
    rw [List.cons_append, List.foldlM_cons, replaceVar_plain L cfg t hplain hv hs]
    exact ih (fun x hx => hpre x (List.mem_cons_of_mem _ hx)) _

theorem tokenIds_not_open (body : Str) : ∀ id ∈ tokenIds (segments body), ∀ c ∈ id, c ≠ '{' := by
  intro id hid c hc
  exact identChar_not_open ((segmentsAux_tok _ _ id (mem_tokenIds.1 hid)).2 c hc)

theorem segments_token (id : Str) (hne : id ≠ []) (hid : ∀ c ∈ id, identChar c = true) :
    segments (token id) = [Seg.tok id] := by
  have hm := matchPlaceholder_token id [] hne hid
  rw [List.append_nil] at hm
  have hlen : (token id).length = (id.length + 3) + 1 := by simp [token]
  unfold segments
  rw [hlen]
  have e : token id = '{' :: ('{' :: (id ++ ['}', '}'])) := rfl
  rw [e] at hm ⊢
  simp only [segmentsAux, hm]

/-! ## The claims -/

/-- C1, as stated, fails: in `clashingInner` the leaves are scalars with the distinct dotted
paths `a.b.c.d` and `a.b.c.e`, yet the result has one entry only, whichever of the two
listing orders is visited, because the two inner mappings are both written under `a.b.c`. -/
theorem C1_counterexample :
    scalarLeaves clashingInner ∧ (keys (leaves clashingInner)).Nodup ∧
    convertMapTo1DMap RangeOrder.listed 3 clashingInner = some [("a.b.c.e".toList, .int 2)] ∧
    convertMapTo1DMap RangeOrder.backwards 3 clashingInner = some [("a.b.c.d".toList, .int 1)] ∧
    leaves clashingInner = [("a.b.c.d".toList, .int 1), ("a.b.c.e".toList, .int 2)] :=
  ⟨by decide, by decide, rfl, rfl, rfl⟩

/-- C1, amended: for every nested mapping whose leaves are all scalars and whose entries at
every depth, inner mappings included, have pairwise distinct dotted paths, and for every
visiting order, `convertMapTo1DMap` returns (given a bound above the nesting depth) a
mapping with distinct keys that has exactly one entry per leaf, its key the dotted path of
the leaf and its value the value of the leaf, and no other entry. -/
theorem C1_flatten_leaves (ro : RangeOrder) (fuel : Nat) (i : GoMap)
    (hfuel : mapDepth i < fuel) (hleaves : scalarLeaves i) (hpaths : (keys (nodes i)).Nodup) :
    ∃ r, convertMapTo1DMap ro fuel i = some r ∧ r.Perm (leaves i) ∧ (keys r).Nodup := by
  obtain ⟨r, hr, hperm⟩ := convertMapTo1DMap_leaves ro fuel i hfuel hleaves hpaths
  exact ⟨r, hr, hperm, (keys_perm hperm).nodup_iff.2
    (hpaths.sublist (keys_sublist (leaves_sublist_nodes i)))⟩

/-- C1, amended, on the configuration `a: {b: 1}, c: x`. -/
theorem C1_flatten_leaves_witness :
    mapDepth smallConfig < 2 ∧ scalarLeaves smallConfig ∧ (keys (nodes smallConfig)).Nodup ∧
    ∃ r, convertMapTo1DMap RangeOrder.backwards 2 smallConfig = some r ∧
      r.Perm (leaves smallConfig) ∧ (keys r).Nodup :=
  ⟨by decide, by decide, by decide,
    C1_flatten_leaves RangeOrder.backwards 2 smallConfig (by decide) (by decide) (by decide)⟩

/-- C5, the failing input: the sequence under `a.b` in `a: {b: [1]}` is written to the
result by the inner loop and never removed, whatever the visiting order: the result has the
key `a.b`, and its value is not a scalar. -/
theorem C5_nested_sequence_kept (ro : RangeOrder) :
    convertMapTo1DMap ro 2 nestedSeq = some [("a.b".toList, .seq [.int 1])] := by
  have h1 : ∀ x : Str × Value, ro.order [x] = [x] := fun x => List.perm_singleton.1 (ro.perm [x])
  have h2 : reduce1D ro nestedSeq = [("a.b".toList, .seq [.int 1])] := by
    simp only [nestedSeq, reduce1D, h1, List.foldl_cons, List.foldl_nil, reduceEntry]
    rfl
  rw [convertMapTo1DMap_succ, h2, h1]
  rfl

/-- C6: for every nested mapping, whatever its leaves, and every visiting order,
`convertMapTo1DMap` returns (given a bound above the nesting depth) and no value of the
mapping it returns is a mapping. -/
theorem C6_no_mapping_left (ro : RangeOrder) (fuel : Nat) (i : GoMap) (hfuel : mapDepth i < fuel) :
    ∃ r, convertMapTo1DMap ro fuel i = some r ∧ ∀ x ∈ r, x.2.kind ≠ Kind.map :=
  convertMapTo1DMap_noMap ro fuel i hfuel

/-- C6 on the configuration `a: {b.c: {d: 1}}, a.b: {c: {e: 2}}`. -/
theorem C6_no_mapping_left_witness :
    mapDepth clashingInner < 3 ∧
    ∃ r, convertMapTo1DMap RangeOrder.listed 3 clashingInner = some r ∧
      ∀ x ∈ r, x.2.kind ≠ Kind.map :=
  ⟨by decide, C6_no_mapping_left RangeOrder.listed 3 clashingInner (by decide)⟩

/-- C7, as stated, fails: in `clashingLeaf` the sibling keys are distinct at every level
and there are two scalar leaves, yet the result has one entry, whichever of the two listing
orders is visited. -/
theorem C7_counterexample :
    siblingKeysDistinct clashingLeaf = true ∧ scalarLeafCount clashingLeaf = 2 ∧
    convertMapTo1DMap RangeOrder.listed 2 clashingLeaf = some [("a.b".toList, .int 2)] ∧
    convertMapTo1DMap RangeOrder.backwards 2 clashingLeaf = some [("a.b".toList, .int 1)] :=
  ⟨by decide, by decide, rfl, rfl⟩

/-- C7, amended: for every nested mapping whose leaves are all scalars and whose entries at
every depth, inner mappings included, have pairwise distinct dotted paths, the mapping
returned by `convertMapTo1DMap` has exactly as many entries as there are scalar leaves. -/
theorem C7_entry_count (ro : RangeOrder) (fuel : Nat) (i : GoMap)
    (hfuel : mapDepth i < fuel) (hleaves : scalarLeaves i) (hpaths : (keys (nodes i)).Nodup) :
    ∃ r, convertMapTo1DMap ro fuel i = some r ∧ r.length = scalarLeafCount i := by
  obtain ⟨r, hr, hperm⟩ := convertMapTo1DMap_leaves ro fuel i hfuel hleaves hpaths
  refine ⟨r, hr, ?_⟩
  have hall : (leaves i).filter (fun kv => kv.2.isScalar) = leaves i :=
    List.filter_eq_self.2 (fun x hx => hleaves x hx)
  rw [scalarLeafCount, hall]
  exact hperm.length_eq

/-- C7, amended, on the configuration `a: {b: 1}, c: x`. -/
theorem C7_entry_count_witness :
    mapDepth smallConfig < 2 ∧ scalarLeaves smallConfig ∧ (keys (nodes smallConfig)).Nodup ∧
    ∃ r, convertMapTo1DMap RangeOrder.listed 2 smallConfig = some r ∧
      r.length = scalarLeafCount smallConfig :=
  ⟨by decide, by decide, by decide,
    C7_entry_count RangeOrder.listed 2 smallConfig (by decide) (by decide) (by decide)⟩

/-- C2, as stated, fails: in `{{{{a}}}} {{x}}` the matched identifiers `a` and `x` are keys
made of letters, the values `x` and `Y` have no `$`, `{`, `}`; the simultaneous
substitution of the two tokens gives `{{x}} Y`, the code gives `Y Y`: the value of `a`,
between the braces left of the text, makes a new token `{{x}}` that the replacement for `x`
then replaces. -/
theorem C2_counterexample :
    (∀ kv ∈ chainedConfig, kv.2.isScalar = true) ∧
    stringForm GoLib.sample chainedConfig "a".toList = "x".toList ∧
    stringForm GoLib.sample chainedConfig "x".toList = "Y".toList ∧
    tokenIds (segments bracesAroundToken) = ["a".toList, "x".toList] ∧
    (∀ id ∈ tokenIds (segments bracesAroundToken),
      (chainedConfig.get id).isSome = true ∧ ∀ c ∈ id, nameChar GoLib.sample c = true) ∧
    substituteAll GoLib.sample chainedConfig (segments bracesAroundToken)
      = '{' :: '{' :: 'x' :: '}' :: '}' :: ' ' :: ['Y'] ∧
    replaceVarsByValues GoLib.sample chainedConfig bracesAroundToken = .ok "Y Y".toList :=
  ⟨by decide, rfl, rfl, rfl, by decide, rfl, rfl⟩

/-- C2, amended: for every flat mapping of scalars and every text such that every
identifier matched by the placeholder pattern is a key of the mapping and consists only of
letters, digits and underscores, the string form of every mapping value contains none of
`$`, `{`, `}`, and no character of the text outside the matched tokens is `{`:
`replaceVarsByValues` returns the text with each token replaced by the string form of the
value of its identifier and every character outside the tokens unchanged. -/
theorem C2_simultaneous_substitution (L : GoLib) (cfg : GoMap) (body : Str)
    (hcfg : ∀ kv ∈ cfg, kv.2.isScalar = true)
    (hval : ∀ kv ∈ cfg, ∀ s, convertTypeToString L kv.2 = .ok s →
      ∀ c ∈ s, c ≠ '$' ∧ c ≠ '{' ∧ c ≠ '}')
    (hid : ∀ id ∈ tokenIds (segments body),
      (cfg.get id).isSome = true ∧ ∀ c ∈ id, nameChar L c = true)
    (hlit : ∀ seg ∈ segments body, seg ≠ Seg.lit '{') :
    replaceVarsByValues L cfg body = .ok (substituteAll L cfg (segments body)) := by
  apply replaceVarsByValues_substituteAll L cfg body _
    (fun c hc e => hlit _ hc (by rw [e]))
  intro id hmem
  obtain ⟨hsome, hchars⟩ := hid id hmem
  obtain ⟨v, hv⟩ := Option.isSome_iff_exists.1 hsome
  have hin := get_mem hv
  obtain ⟨s, hs⟩ := convertTypeToString_of_isScalar L (hcfg _ hin)
  exact ⟨fun c hc => regexMeta_of_nameChar L (hchars c hc), v, s, hv, hs,
    fun c hc => ⟨(hval _ hin s hs c hc).1, (hval _ hin s hs c hc).2.1⟩⟩

/-- C2, amended, on the text `k_1=<token k_1>;` and the mapping `k_1: -7`. -/
theorem C2_simultaneous_substitution_witness :
    replaceVarsByValues GoLib.sample [("k_1".toList, .int (-7))]
        ("k_1=".toList ++ token "k_1".toList ++ [';'])
      = .ok (substituteAll GoLib.sample [("k_1".toList, .int (-7))]
          (segments ("k_1=".toList ++ token "k_1".toList ++ [';']))) :=
  C2_simultaneous_substitution GoLib.sample [("k_1".toList, .int (-7))]
    ("k_1=".toList ++ token "k_1".toList ++ [';'])
    (by decide)
    (by
      intro kv hkv s hs
      simp only [List.mem_singleton] at hkv
      subst hkv
      simp only [convertTypeToString, Except.ok.injEq] at hs
      subst hs
      decide)
    (by decide)
    (by decide)

/-- C3, as stated, fails, in two ways.  In `{{a}} {{b}}` with the mapping `a: null`, `b` is
the leftmost identifier that is not a key, and the failure is the unsupported-type panic
raised for `a`, which names no identifier.  In `{{a^b}}` with the empty mapping, the token
has an identifier that is not a key, and nothing fails: the pattern does not match an
identifier with a `^`, and the text is returned unchanged. -/
theorem C3_counterexample :
    twoTokens = (token "a".toList ++ [' ']) ++ token "b".toList ++ [] ∧
    tokenIds (segments twoTokens) = ["a".toList, "b".toList] ∧
    GoMap.get [("a".toList, Value.null)] "a".toList = some Value.null ∧
    GoMap.get [("a".toList, Value.null)] "b".toList = none ∧
    replaceVarsByValues GoLib.sample [("a".toList, Value.null)] twoTokens
      = .error Panic.typeNotSupported ∧
    (∀ c ∈ "a^b".toList, c ≠ '{' ∧ c ≠ '}' ∧ c ≠ ';') ∧
    GoMap.get [] "a^b".toList = none ∧
    replaceVarsByValues GoLib.sample [] (token "a^b".toList) = .ok (token "a^b".toList) :=
  ⟨rfl, rfl, rfl, rfl, rfl, by decide, rfl, rfl⟩

/-- C4, the failing input: with the String value `$1` under `a.b`, the text `{{a.b}}`
becomes the empty text, not `$1`: `ReplaceAllString` reads `$1` in the value as a reference
to a group that the expression does not have. -/
theorem C4_dollar_value_expanded (L : GoLib) :
    replaceVarsByValues L [("a.b".toList, .str "$1".toList)] (token "a.b".toList) = .ok [] :=
  rfl

/-- C8, as stated, fails: the empty mapping has no key `{{a}}`, and on the text `{{{{a}}}}`
the pattern matches the inner `{{a}}`, so that the substitution fails for `a`. -/
theorem C8_counterexample :
    GoMap.get [] (token "a".toList) = none ∧
    replaceVarsByValues GoLib.sample [] nestedBraces
      = .error (Panic.variableNotFound "a".toList) :=
  ⟨rfl, rfl⟩

/-- C8, amended: on the text `{{{{a}}}}` the pattern matches the inner `{{a}}`: for every
mapping, `replaceVarsByValues` fails with the unresolved-variable panic for `a` when `a` is
not a key, and returns `{{` + s + `}}` when `a` is a key whose value has the string form
`s`, free of `$`. -/
theorem C8_inner_token_matched (L : GoLib) (cfg : GoMap) :
    (cfg.get "a".toList = none →
      replaceVarsByValues L cfg nestedBraces = .error (Panic.variableNotFound "a".toList)) ∧
    (∀ v s, cfg.get "a".toList = some v → convertTypeToString L v = .ok s →
      (∀ c ∈ s, c ≠ '$') →
      replaceVarsByValues L cfg nestedBraces = .ok ('{' :: '{' :: (s ++ ['}', '}']))) := by
  have hseg : tokenIds (segments nestedBraces) = ["a".toList] := rfl
  refine ⟨?_, ?_⟩
  · intro hget
    rw [replaceVarsByValues_eq, hseg, List.foldlM_cons,
      replaceVar_absent L cfg _ (by decide) hget]
    rfl
  · intro v s hget hs hdollar
    rw [replaceVarsByValues_eq, hseg, List.foldlM_cons,
      replaceVar_plain L cfg _ (by decide) hget hs]
    have : replaceAllAux L (identPattern "a".toList) s nestedBraces.length nestedBraces
        = '{' :: '{' :: (expand L s (token "a".toList) ++ ['}', '}']) := rfl
    rw [this, expand_plain L s _ hdollar]
    rfl

/-- C8, amended, on the empty mapping and on the mapping `a: v`. -/
theorem C8_inner_token_matched_witness :
    replaceVarsByValues GoLib.sample [] nestedBraces
      = .error (Panic.variableNotFound "a".toList) ∧
    replaceVarsByValues GoLib.sample [("a".toList, .str "v".toList)] nestedBraces
      = .ok ('{' :: '{' :: ("v".toList ++ ['}', '}'])) :=
  ⟨(C8_inner_token_matched GoLib.sample []).1 rfl,
    (C8_inner_token_matched GoLib.sample [("a".toList, .str "v".toList)]).2
      (.str "v".toList) "v".toList rfl rfl (by decide)⟩

/-- C9, as stated, fails: the identifier `a^b` is not empty, has none of `{`, `}`, `;` and
is not a key of the empty mapping, yet `{{a^b}}` is not matched (the character class of the
pattern also excludes `^`): the text is returned unchanged and nothing fails. -/
theorem C9_counterexample :
    "a^b".toList ≠ [] ∧ (∀ c ∈ "a^b".toList, c ≠ '{' ∧ c ≠ '}' ∧ c ≠ ';') ∧
    GoMap.get [] "a^b".toList = none ∧
    replaceVarsByValues GoLib.sample [] (token "a^b".toList) = .ok (token "a^b".toList) :=
  ⟨by decide, by decide, rfl, rfl⟩

/-- C9, amended: for every non-empty identifier that contains none of the characters `{`,
`}`, `;`, `^`, the text `{{id}}` is recognized as a placeholder token referencing the
identifier: when it is not a key of the mapping, `replaceVarsByValues` fails with the
unresolved-variable panic for it. -/
theorem C9_token_recognized (L : GoLib) (cfg : GoMap) (id : Str) (hne : id ≠ [])
    (hchars : ∀ c ∈ id, c ≠ '{' ∧ c ≠ '}' ∧ c ≠ ';' ∧ c ≠ '^') (hget : cfg.get id = none) :
    replaceVarsByValues L cfg (token id) = .error (Panic.variableNotFound id) := by
  have hid : ∀ c ∈ id, identChar c = true := by
    intro c hc
    obtain ⟨h1, h2, h3, h4⟩ := hchars c hc
    simp [identChar, h1, h2, h3, h4]
  rw [replaceVarsByValues_eq, segments_token id hne hid]
  show [id].foldlM (replaceVar L cfg) (token id) = _
  rw [List.foldlM_cons, replaceVar_absent L cfg _ (fun c hc => (hchars c hc).1) hget]
  rfl

/-- C9, amended, on the identifier `a.b-c d` and the empty mapping. -/
theorem C9_token_recognized_witness :
    "a.b-c d".toList ≠ [] ∧
    (∀ c ∈ "a.b-c d".toList, c ≠ '{' ∧ c ≠ '}' ∧ c ≠ ';' ∧ c ≠ '^') ∧
    GoMap.get [] "a.b-c d".toList = none ∧
    replaceVarsByValues GoLib.sample [] (token "a.b-c d".toList)
      = .error (Panic.variableNotFound "a.b-c d".toList) :=
  ⟨by decide, by decide, rfl,
    C9_token_recognized GoLib.sample [] "a.b-c d".toList (by decide) (by decide) rfl⟩

/-- C10, the failing input: with the mapping `a.b: 1, axb: 2`, the text `{{a.b}} {{axb}}`
becomes `1 1`, not `1 2`: the dot of `a.b`, unescaped in the expression compiled for it, also
matches the `x` of the token `{{axb}}`. -/
theorem C10_dot_matches_other_token (L : GoLib) :
    replaceVarsByValues L dottedConfig dottedText = .ok "1 1".toList :=
  rfl

/-- C11, as stated, fails: with `x: {{y}}, y: w` the text `{{x}} {{y}}` becomes `w w`, not
`{{y}} w`: the token put in the running text as the value of `x` is replaced by the later
replacement done for `y`. -/
theorem C11_counterexample :
    GoMap.get reResolvedConfig "x".toList = some (.str (token "y".toList)) ∧
    GoMap.get reResolvedConfig "y".toList = some (.str "w".toList) ∧
    (∀ c ∈ "w".toList, c ≠ '$' ∧ c ≠ '{' ∧ c ≠ '}') ∧
    replaceVarsByValues GoLib.sample reResolvedConfig xThenY = .ok "w w".toList :=
  ⟨rfl, rfl, by decide, rfl⟩

/-- C11, amended: a substituted value is resolved again when its identifier is matched
later in the text: for every mapping with `x` the String `{{y}}` and `y` a String `w` free
of `$`, `{`, `}`, `replaceVarsByValues` on `{{x}} {{y}}` returns `w`, a space and `w`. -/
theorem C11_value_resolved_again (L : GoLib) (cfg : GoMap) (w : Str)
    (hx : cfg.get "x".toList = some (.str (token "y".toList)))
    (hy : cfg.get "y".toList = some (.str w))
    (hw : ∀ c ∈ w, c ≠ '$' ∧ c ≠ '{' ∧ c ≠ '}') :
    replaceVarsByValues L cfg xThenY = .ok (w ++ ' ' :: w) := by
  have hseg : tokenIds (segments xThenY) = ["x".toList, "y".toList] := rfl
  have h1 : replaceAllAux L (identPattern "x".toList) (token "y".toList) xThenY.length xThenY
      = token "y".toList ++ ' ' :: token "y".toList := rfl
  have s1 : replaceVar L cfg xThenY "x".toList
      = .ok (token "y".toList ++ ' ' :: token "y".toList) := by
    rw [replaceVar_plain L cfg _ (by decide) hx rfl, h1]
  have h2 : replaceAllAux L (identPattern "y".toList) w
        (token "y".toList ++ ' ' :: token "y".toList).length
        (token "y".toList ++ ' ' :: token "y".toList)
      = expand L w (token "y".toList) ++ ' ' :: (expand L w (token "y".toList) ++ []) := rfl
  have s2 : replaceVar L cfg (token "y".toList ++ ' ' :: token "y".toList) "y".toList
      = .ok (w ++ ' ' :: w) := by
    rw [replaceVar_plain L cfg _ (by decide) hy rfl, h2,
      expand_plain L w _ (fun c hc => (hw c hc).1), List.append_nil]
  rw [replaceVarsByValues_eq, hseg, List.foldlM_cons, s1]
  show ["y".toList].foldlM (replaceVar L cfg) (token "y".toList ++ ' ' :: token "y".toList) = _
  rw [List.foldlM_cons, s2]
  rfl

/-- C11, amended, on the mapping `x: {{y}}, y: w`. -/
theorem C11_value_resolved_again_witness :
    replaceVarsByValues GoLib.sample reResolvedConfig xThenY
      = .ok ("w".toList ++ ' ' :: "w".toList) :=
  C11_value_resolved_again GoLib.sample reResolvedConfig "w".toList rfl rfl (by decide)

theorem digitChar_isDigit {k : Nat} (h : k < 10) : (Nat.digitChar k).isDigit = true := by
  interval_cases k <;> rfl

theorem digitChar_toNat {k : Nat} (h : k < 10) : (Nat.digitChar k).toNat - '0'.toNat = k := by
  interval_cases k <;> rfl

theorem digitChar_ne_zero {k : Nat} (h : k < 10) (h0 : k ≠ 0) : Nat.digitChar k ≠ '0' := by
  interval_cases k <;> first | exact absurd rfl h0 | decide

theorem digitsValue_append (a : Str) (c : Char) :
    digitsValue (a ++ [c]) = 10 * digitsValue a + (c.toNat - '0'.toNat) := by
  simp [digitsValue, List.foldl_append]

/-- The digits written by `Nat.toDigitsCore`, in front of what was already written. -/
theorem toDigitsCore_spec (fuel : Nat) : ∀ (n : Nat) (ds : Str), n < fuel →
    ∃ pre, Nat.toDigitsCore 10 fuel n ds = pre ++ ds ∧ pre ≠ [] ∧
      (∀ c ∈ pre, c.isDigit = true) ∧ (n = 0 → pre = ['0']) ∧
      (n ≠ 0 → pre.head? ≠ some '0') ∧ digitsValue pre = n := by
  induction fuel with
  | zero => intro n ds h; omega
  | succ fuel ih =>
    intro n ds h
    have hmod : n % 10 < 10 := Nat.mod_lt _ (by decide)
    by_cases hq : n / 10 = 0
    · have hlt : n < 10 := by omega
      have hn : n % 10 = n := Nat.mod_eq_of_lt hlt
      refine ⟨[Nat.digitChar n], ?_, by simp, ?_, ?_, ?_, ?_⟩
      · simp [Nat.toDigitsCore, hq, hn]
      · intro c hc
        simp only [List.mem_singleton] at hc
        exact hc ▸ digitChar_isDigit hlt
      · intro h0; subst h0; rfl
      · intro h0
        simp only [List.head?_cons, ne_eq, Option.some.injEq]
        exact digitChar_ne_zero hlt h0
      · have := digitChar_toNat hlt
        simpa [digitsValue] using this
    · have hlt : n / 10 < fuel := by omega
      obtain ⟨pre, hpre, hne, hdig, _, hhead, hval⟩ := ih (n / 10) (Nat.digitChar (n % 10) :: ds) hlt
      refine ⟨pre ++ [Nat.digitChar (n % 10)], ?_, by simp, ?_, ?_, ?_, ?_⟩
      · simp [Nat.toDigitsCore, hq, hpre]
      · intro c hc
        rcases List.mem_append.1 hc with hc | hc
        · exact hdig c hc
        · simp only [List.mem_singleton] at hc
          exact hc ▸ digitChar_isDigit hmod
      · intro h0; subst h0; simp at hq
      · intro _
        cases pre with
        | nil => exact absurd rfl hne
        | cons a t => simpa using hhead hq
      · rw [digitsValue_append, hval, digitChar_toNat hmod]
        omega

/-- The decimal digits of a natural number: not empty, digits only, no leading zero but for
`0` itself, and they read back as the number. -/
theorem toDigits_spec (n : Nat) :
    Nat.toDigits 10 n ≠ [] ∧ (∀ c ∈ Nat.toDigits 10 n, c.isDigit = true) ∧
    (n = 0 → Nat.toDigits 10 n = ['0']) ∧ (n ≠ 0 → (Nat.toDigits 10 n).head? ≠ some '0') ∧
    digitsValue (Nat.toDigits 10 n) = n := by
  obtain ⟨pre, hpre, h⟩ := toDigitsCore_spec (n + 1) n [] (by omega)
  have : Nat.toDigits 10 n = pre := by
    simp [Nat.toDigits, hpre]
  rw [this]
  exact h

theorem parseInt_digits {ds : Str} (hne : ds ≠ []) (hd : ∀ c ∈ ds, c.isDigit = true) :
    parseInt ds = some (digitsValue ds : Int) := by
  cases ds with
  | nil => exact absurd rfl hne
  | cons c t =>
    have hc : c ≠ '-' := by
      intro e
      have := hd c (List.mem_cons_self _ _)
      rw [e] at this
      exact absurd this (by decide)
    have hall : (c :: t).all Char.isDigit = true := List.all_eq_true.2 hd
    simp only [parseInt, if_neg hc, hall, if_true]

theorem parseInt_minus {ds : Str} (hne : ds ≠ []) (hd : ∀ c ∈ ds, c.isDigit = true) :
    parseInt ('-' :: ds) = some (-(digitsValue ds : Int)) := by
  have hall : ds.all Char.isDigit = true := List.all_eq_true.2 hd
  simp only [parseInt, if_true, hall, and_true, if_pos hne]

/-- C15: for every Integer `n`, `convertTypeToString` returns the canonical decimal string
of `n`: a minus sign exactly when `n` is negative, then decimal digits, at least one, with no
leading zero (the single digit `0` for `n = 0`), and parsing the string as a decimal integer
gives `n` back. -/
theorem C15_integer_decimal (L : GoLib) (n : Int) :
    ∃ digits : Str,
      convertTypeToString L (.int n) = .ok ((if n < 0 then ['-'] else []) ++ digits) ∧
      digits ≠ [] ∧ (∀ c ∈ digits, c.isDigit = true) ∧
      (n = 0 → digits = ['0']) ∧ (n ≠ 0 → digits.head? ≠ some '0') ∧
      parseInt ((if n < 0 then ['-'] else []) ++ digits) = some n := by
  cases n with
  | ofNat m =>
    obtain ⟨h1, h2, h3, h4, h5⟩ := toDigits_spec m
    have hneg : ¬ (Int.ofNat m < 0) := by simp
    refine ⟨Nat.toDigits 10 m, ?_, h1, h2, ?_, ?_, ?_⟩
    · simp only [if_neg hneg, List.nil_append]; rfl
    · intro h0; exact h3 (by simpa using h0)
    · intro h0; exact h4 (by intro e; apply h0; simp [e])
    · simp only [if_neg hneg, List.nil_append]
      rw [parseInt_digits h1 h2, h5]; rfl
  | negSucc m =>
    obtain ⟨h1, h2, _, h4, h5⟩ := toDigits_spec (m + 1)
    have hneg : Int.negSucc m < 0 := Int.negSucc_lt_zero m
    refine ⟨Nat.toDigits 10 (m + 1), ?_, h1, h2, ?_, ?_, ?_⟩
    · simp only [if_pos hneg]; rfl
    · intro h0; simp at h0
    · intro _; exact h4 (by omega)
    · simp only [if_pos hneg, List.singleton_append]
      rw [parseInt_minus h1 h2, h5]; rfl

theorem matchPlaceholder_not_open {c : Char} (t : Str) (h : c ≠ '{') :
    matchPlaceholder (c :: t) = none := by
  have : ¬ ('{' = c) := fun e => h e.symm
  simp [matchPlaceholder, stripPrefix, this]

/-- The cut of a text made of clean pieces gives the pieces back. -/
theorem segmentsAux_render (segs : List Seg) (hclean : ∀ seg ∈ segs, seg.clean) (n : Nat)
    (hn : (render segs).length ≤ n) : segmentsAux n (render segs) = segs := by
  induction segs generalizing n with
  | nil => cases n <;> rfl
  | cons hd tl ih =>
    have htl : ∀ seg ∈ tl, seg.clean := fun seg h => hclean seg (List.mem_cons_of_mem _ h)
    have hhd := hclean hd (List.mem_cons_self _ _)
    cases hd with
    | lit c =>
      have hc : c ≠ '{' := hhd
      simp only [render, List.length_cons] at hn
      obtain ⟨n', rfl⟩ : ∃ n', n = n' + 1 := ⟨n - 1, by omega⟩
      show segmentsAux (n' + 1) (c :: render tl) = _
      simp only [segmentsAux, matchPlaceholder_not_open _ hc]
      rw [ih htl n' (by omega)]
    | tok id =>
      obtain ⟨hne, hid⟩ : id ≠ [] ∧ ∀ c ∈ id, identChar c = true := hhd
      simp only [render, List.length_append, token_length] at hn
      obtain ⟨n', rfl⟩ : ∃ n', n = n' + 1 := ⟨n - 1, by omega⟩
      have hm := matchPlaceholder_token id (render tl) hne hid
      have e : token id ++ render tl = '{' :: ('{' :: (id ++ ['}', '}']) ++ render tl) := rfl
      show segmentsAux (n' + 1) (token id ++ render tl) = _
      rw [e] at hm ⊢
      simp only [segmentsAux, hm]
      rw [ih htl n' (by omega)]

theorem segments_render (segs : List Seg) (hclean : ∀ seg ∈ segs, seg.clean) :
    segments (render segs) = segs :=
  segmentsAux_render segs hclean _ (Nat.le_refl _)

theorem substituteAll_append (L : GoLib) (cfg : GoMap) (a b : List Seg) :
    substituteAll L cfg (a ++ b) = substituteAll L cfg a ++ substituteAll L cfg b := by
  induction a with
  | nil => rfl
  | cons hd tl ih => cases hd <;> simp [substituteAll, ih]

theorem substituteAll_map_lit (L : GoLib) (cfg : GoMap) (s : Str) :
    substituteAll L cfg (s.map Seg.lit) = s := by
  induction s with
  | nil => rfl
  | cons hd tl ih => simp [substituteAll, ih]

theorem identChar_of_nameChar (L : GoLib) {c : Char} (h : nameChar L c = true) :
    identChar c = true := by
  have hm := regexMeta_of_nameChar L h
  have h1 : c ≠ '{' := by intro e; subst e; simp [regexMeta] at hm
  have h2 : c ≠ '}' := by intro e; subst e; simp [regexMeta] at hm
  have h3 : c ≠ '^' := by intro e; subst e; simp [regexMeta] at hm
  have h4 : c ≠ ';' := by intro e; subst e; revert h; simp [nameChar]
  simp [identChar, h1, h2, h3, h4]

theorem formatBool_plain (b : Bool) : ∀ c ∈ formatBool b, c ≠ '$' ∧ c ≠ '{' ∧ c ≠ '}' := by
  cases b <;> decide

theorem isDigit_plain {c : Char} (h : c.isDigit = true) : c ≠ '$' ∧ c ≠ '{' ∧ c ≠ '}' := by
  refine ⟨?_, ?_, ?_⟩ <;> (intro e; subst e; exact absurd h (by decide))

theorem formatInt_plain (n : Int) : ∀ c ∈ formatInt n, c ≠ '$' ∧ c ≠ '{' ∧ c ≠ '}' := by
  intro c hc
  cases n with
  | ofNat m => exact isDigit_plain ((toDigits_spec m).2.1 c hc)
  | negSucc m =>
    simp only [formatInt, List.mem_cons] at hc
    rcases hc with hc | hc
    · subst hc; decide
    · exact isDigit_plain ((toDigits_spec (m + 1)).2.1 c hc)

theorem render_repeatedToken (x : Str) (seps : List Str) :
    render (repeatedToken x seps) = token x ++ seps.flatMap (fun sep => sep ++ token x) := by
  have : ∀ seps : List Str, render (seps.flatMap (fun sep => sep.map Seg.lit ++ [Seg.tok x]))
      = seps.flatMap (fun sep => sep ++ token x) := by
    intro seps
    induction seps with
    | nil => rfl
    | cons hd tl ih =>
      rw [List.flatMap_cons, List.flatMap_cons, render_append, render_append, render_map_lit, ih]
      simp [render]
  show token x ++ _ = _
  rw [this]

theorem substituteAll_repeatedToken (L : GoLib) (cfg : GoMap) (x : Str) (seps : List Str) :
    substituteAll L cfg (repeatedToken x seps)
      = stringForm L cfg x ++ seps.flatMap (fun sep => sep ++ stringForm L cfg x) := by
  have : ∀ seps : List Str,
      substituteAll L cfg (seps.flatMap (fun sep => sep.map Seg.lit ++ [Seg.tok x]))
        = seps.flatMap (fun sep => sep ++ stringForm L cfg x) := by
    intro seps
    induction seps with
    | nil => rfl
    | cons hd tl ih =>
      rw [List.flatMap_cons, List.flatMap_cons, substituteAll_append, substituteAll_append,
        substituteAll_map_lit, ih]
      simp [substituteAll]
  show stringForm L cfg x ++ _ = _
  rw [this]

theorem clean_repeatedToken (x : Str) (seps : List Str) (hne : x ≠ [])
    (hx : ∀ c ∈ x, identChar c = true) (hseps : ∀ sep ∈ seps, ∀ c ∈ sep, c ≠ '{') :
    ∀ seg ∈ repeatedToken x seps, seg.clean := by
  intro seg hseg
  simp only [repeatedToken, List.mem_cons, List.mem_flatMap, List.mem_append, List.mem_map,
    List.mem_singleton] at hseg
  rcases hseg with h | ⟨sep, hsep, ⟨c, hc, h⟩ | h | h⟩
  · subst h; exact ⟨hne, hx⟩
  · subst h; exact hseps sep hsep c hc
  · subst h; exact ⟨hne, hx⟩
  · simp at h

theorem tokenIds_repeatedToken (x : Str) (seps : List Str) :
    ∀ id ∈ tokenIds (repeatedToken x seps), id = x := by
  intro id hid
  have := mem_tokenIds.1 hid
  simp only [repeatedToken, List.mem_cons, List.mem_flatMap, List.mem_append, List.mem_map,
    List.mem_singleton, Seg.tok.injEq] at this
  rcases this with h | ⟨sep, _, ⟨c, _, h⟩ | h | h⟩
  · exact h
  · cases h
  · exact h
  · simp at h

theorem tokenIds_segmentsAux_nil (n : Nat) (s : Str)
    (h : ∀ pre t, s = pre ++ t → matchPlaceholder t = none) :
    tokenIds (segmentsAux n s) = [] := by
  induction n generalizing s with
  | zero => rfl
  | succ n ih =>
    cases s with
    | nil => rfl
    | cons c t =>
      have h0 := h [] (c :: t) rfl
      simp only [segmentsAux, h0, tokenIds]
      exact ih t (fun pre t' e => h (c :: pre) t' (by rw [e]; rfl))

theorem tokenAt_token (id post : Str) (hne : id ≠ []) (hid : ∀ c ∈ id, specChar c = true) :
    tokenAt (token id ++ post) = true := by
  obtain ⟨h1, h2⟩ := takeWhile_append_of_stop id ('}' :: post) '}' hid (by decide)
  have hs : stripPrefix ['{', '{'] (token id ++ post) = some (id ++ '}' :: '}' :: post) := by
    have := stripPrefix_append ['{', '{'] (id ++ '}' :: '}' :: post)
    simpa [token] using this
  have hs2 : stripPrefix ['}', '}'] ('}' :: '}' :: post) = some post :=
    stripPrefix_append ['}', '}'] post
  cases id with
  | nil => exact absurd rfl hne
  | cons c cs => simp only [tokenAt, hs, h1, h2, hs2]; rfl

/-- A text with no token found by `containsToken` has no substring that is a token. -/
theorem no_token_of_containsToken {body : Str} (h : containsToken body = false) :
    ∀ pre id post, body = pre ++ token id ++ post → id ≠ [] →
      (∀ c ∈ id, c ≠ '{' ∧ c ≠ '}' ∧ c ≠ ';') → False := by
  intro pre id post hb hne hid
  have hmem : (token id ++ post) ∈ body.tails := by
    rw [List.mem_tails]
    exact ⟨pre, by rw [hb, List.append_assoc]⟩
  have hat := tokenAt_token id post hne (fun c hc => by
    obtain ⟨h1, h2, h3⟩ := hid c hc
    simp [specChar, h1, h2, h3])
  have : containsToken body = true := List.any_eq_true.2 ⟨_, hmem, hat⟩
  rw [h] at this
  cases this

/-- C16: for every mapping and every text that has no substring made of `{{`, one or more
characters other than `{`, `}`, `;`, and `}}`, the pattern has no match, so that
`replaceVarsByValues` looks nothing up, does not fail and returns the text unchanged. -/
theorem C16_no_token_unchanged (L : GoLib) (cfg : GoMap) (body : Str)
    (h : ∀ pre id post, body = pre ++ token id ++ post → id ≠ [] →
      (∀ c ∈ id, c ≠ '{' ∧ c ≠ '}' ∧ c ≠ ';') → False) :
    findAllStringSubmatch body = [] ∧ replaceVarsByValues L cfg body = .ok body := by
  have hnone : ∀ pre t, body = pre ++ t → matchPlaceholder t = none := by
    intro pre t hb
    cases hm : matchPlaceholder t with
    | none => rfl
    | some p =>
      obtain ⟨id, rest⟩ := p
      obtain ⟨ht, hne, hid⟩ := matchPlaceholder_some hm
      exact (h pre id rest (by rw [hb, ht, List.append_assoc]) hne (fun c hc =>
        ⟨identChar_not_open (hid c hc), identChar_not_close (hid c hc), by
          intro e; have := hid c hc; rw [e] at this; exact absurd this (by decide)⟩)).elim
  have hids : tokenIds (segments body) = [] := tokenIds_segmentsAux_nil _ body hnone
  refine ⟨?_, ?_⟩
  · rw [findAllStringSubmatch_eq, hids]; rfl
  · rw [replaceVarsByValues_eq, hids]; rfl

/-- C16 on the text `{{}} {{a;b}} {a} plain` and the empty mapping. -/
theorem C16_no_token_unchanged_witness :
    containsToken noTokenText = false ∧
    findAllStringSubmatch noTokenText = [] ∧
    replaceVarsByValues GoLib.sample [] noTokenText = .ok noTokenText :=
  ⟨by decide, C16_no_token_unchanged GoLib.sample [] noTokenText
    (no_token_of_containsToken (by decide))⟩

/-- C17, as stated, fails: in `{{a(b}}` the first matched identifier `a(b` is a key whose
value is null, and the failure is the panic of `regexp.MustCompile` on the expression
`\{\{a(b\}\}`, whose group is not closed: the expression is compiled before the value is
converted. -/
theorem C17_counterexample :
    tokenIds (segments (token "a(b".toList)) = ["a(b".toList] ∧
    GoMap.get unclosedGroupConfig "a(b".toList = some Value.null ∧
    Value.null.isScalar = false ∧
    replaceVarsByValues GoLib.sample unclosedGroupConfig (token "a(b".toList)
      = .error (Panic.regexpCompile "a(b".toList) :=
  ⟨rfl, rfl, rfl, rfl⟩

/-- C17, amended: for every mapping and text in which the first matched identifier is a key
whose value is not a scalar and the expression built from that identifier compiles,
`replaceVarsByValues` fails with the unsupported-type panic of `convertTypeToString` and
returns no text; `convertTypeToString` succeeds exactly on Boolean, Integer, Float and
String values. -/
theorem C17_unsupported_type (L : GoLib) (cfg : GoMap) (body id : Str) (rest : List Str)
    (v : Value) (hfirst : tokenIds (segments body) = id :: rest)
    (hget : cfg.get id = some v) (hv : v.isScalar = false)
    (hcomp : ∃ r, mustCompile L id = .ok r) :
    replaceVarsByValues L cfg body = .error Panic.typeNotSupported ∧
    ∀ w : Value, (∃ s, convertTypeToString L w = .ok s) ↔ w.isScalar = true := by
  refine ⟨?_, ?_⟩
  · obtain ⟨r, hr⟩ := hcomp
    have hid : ∀ c ∈ id, c ≠ '{' := tokenIds_not_open body id (by rw [hfirst]; simp)
    have hconv : convertTypeToString L v = .error Panic.typeNotSupported := by
      cases v <;> simp_all [Value.isScalar, convertTypeToString]
    have hstep : replaceVar L cfg body id = .error Panic.typeNotSupported := by
      simp only [replaceVar, stringsContains_ident hid, hget, hr, hconv]
      rfl
    rw [replaceVarsByValues_eq, hfirst, List.foldlM_cons, hstep]
    rfl
  · intro w
    cases w <;> simp [Value.isScalar, convertTypeToString]

/-- C17, amended, on the text `{{a.b}}` and the mapping `a.b: [1]`. -/
theorem C17_unsupported_type_witness :
    replaceVarsByValues GoLib.sample [("a.b".toList, .seq [.int 1])] (token "a.b".toList)
      = .error Panic.typeNotSupported ∧
    ∀ w : Value, (∃ s, convertTypeToString GoLib.sample w = .ok s) ↔ w.isScalar = true :=
  C17_unsupported_type GoLib.sample [("a.b".toList, .seq [.int 1])] (token "a.b".toList)
    "a.b".toList [] (.seq [.int 1]) rfl rfl rfl ⟨_, rfl⟩

theorem stripPrefix_none {p s : Str} (h : stripPrefix p s = none) : ¬ p <+: s := by
  rintro ⟨r, rfl⟩
  rw [stripPrefix_append] at h
  cases h

theorem stringsReplaceAux_some (old new : Str) (n : Nat) {c : Char} {t rest : Str}
    (h : stripPrefix old (c :: t) = some rest) :
    stringsReplaceAux old new (n + 1) (c :: t) = new ++ stringsReplaceAux old new n rest := by
  simp only [stringsReplaceAux, h]

theorem stringsReplaceAux_none (old new : Str) (n : Nat) {c : Char} {t : Str}
    (h : stripPrefix old (c :: t) = none) :
    stringsReplaceAux old new (n + 1) (c :: t) = c :: stringsReplaceAux old new n t := by
  simp only [stringsReplaceAux, h]

theorem take_succ_eq (M : Str) (j : Nat) (h : j < M.length) :
    M.take (j + 1) = M.take j ++ [M[j]] := by
  rw [← List.take_concat_get M j h, List.concat_eq_append]

/-- After the first `j` characters of the marker, kept by the scan, what the scan writes
next does not complete the marker. -/
theorem stringsReplaceAux_no_completion (M : Str) (n : Nat) :
    ∀ (j : Nat) (t : Str), t.length ≤ n → 0 < j → j < M.length →
      (∀ k < M.length, 0 < k → ¬ (M.take k ++ M) <:+: (M.take j ++ t)) →
      ¬ M <+: (M.take j ++ t) →
      ¬ (M.drop j) <+: stringsReplaceAux M [] n t := by
  induction n with
  | zero =>
    intro j t ht _ hj _ _ hpre
    have : t = [] := List.length_eq_zero.1 (by omega)
    subst this
    rw [List.drop_eq_getElem_cons hj] at hpre
    simp [stringsReplaceAux] at hpre
    omega
  | succ n ih =>
    intro j t ht hj0 hj hH hnot hpre
    cases t with
    | nil =>
      rw [List.drop_eq_getElem_cons hj] at hpre
      simp [stringsReplaceAux] at hpre
      omega
    | cons c t' =>
      cases hs : stripPrefix M (c :: t') with
      | some rest =>
        have e := stripPrefix_some hs
        apply hH j hj hj0
        rw [e]
        exact ⟨[], rest, by simp⟩
      | none =>
        rw [stringsReplaceAux_none M [] n hs, List.drop_eq_getElem_cons hj,
          List.cons_prefix_cons] at hpre
        obtain ⟨hc, hrest⟩ := hpre
        have e : M.take j ++ c :: t' = M.take (j + 1) ++ t' := by
          rw [take_succ_eq M j hj, hc]; simp
        by_cases hlast : j + 1 < M.length
        · exact ih (j + 1) t' (by simpa using ht) (by omega) hlast
            (fun k hk hk0 => e ▸ hH k hk hk0) (e ▸ hnot) hrest
        · have hfull : M.take (j + 1) = M := List.take_of_length_le (by omega)
          apply hnot
          rw [e, hfull]
          exact List.prefix_append _ _

/-- The removal of the marker leaves no marker, when no occurrence of the marker in the
text comes right after a non-empty proper prefix of the marker. -/
theorem stringsReplaceAux_no_marker (M : Str) (hM : M ≠ []) (n : Nat) :
    ∀ s : Str, s.length ≤ n →
      (∀ k < M.length, 0 < k → ¬ (M.take k ++ M) <:+: s) →
      ¬ M <:+: stringsReplaceAux M [] n s := by
  induction n with
  | zero =>
    intro s hs _ hin
    have : s = [] := List.length_eq_zero.1 (by omega)
    subst this
    simp only [stringsReplaceAux, List.infix_nil] at hin
    exact hM hin
  | succ n ih =>
    intro s hs hH hin
    cases s with
    | nil =>
      simp only [stringsReplaceAux, List.infix_nil] at hin
      exact hM hin
    | cons c t =>
      cases hsp : stripPrefix M (c :: t) with
      | some rest =>
        have e := stripPrefix_some hsp
        rw [stringsReplaceAux_some M [] n hsp, List.nil_append] at hin
        have hlen : rest.length ≤ n := by
          have h1 := congrArg List.length e
          have h2 : 0 < M.length := List.length_pos.2 hM
          simp only [List.length_cons, List.length_append] at h1 hs
          omega
        refine ih rest hlen (fun k hk hk0 hinf => hH k hk hk0 ?_) hin
        rw [e]
        exact hinf.trans (List.suffix_append _ _).isInfix
      | none =>
        rw [stringsReplaceAux_none M [] n hsp, List.infix_cons_iff] at hin
        have hnot := stripPrefix_none hsp
        have hlen : t.length ≤ n := by simpa using hs
        rcases hin with hpre | hinf
        · cases M with
          | nil => exact hM rfl
          | cons m M' =>
            rw [List.cons_prefix_cons] at hpre
            obtain ⟨hm, hrest⟩ := hpre
            subst hm
            by_cases hone : 1 < (m :: M').length
            · exact stringsReplaceAux_no_completion (m :: M') n 1 t hlen (by omega) hone
                (fun k hk hk0 => hH k hk hk0) hnot hrest
            · have : M' = [] := List.length_eq_zero.1 (by
                simp only [List.length_cons] at hone; omega)
              subst this
              exact hnot ⟨t, rfl⟩
        · exact ih t hlen (fun k hk hk0 h' =>
            hH k hk hk0 (h'.trans (List.suffix_cons _ _).isInfix)) hinf

/-- C18, as stated, fails: the file name `a.temp.templatelate` contains the marker, its
substitution with the empty mapping succeeds, and the output name is `a.template`: the
removal of the one occurrence of the marker joins `.temp` and `late` into a new one. -/
theorem C18_counterexample :
    templateMarker <:+: "a.temp.templatelate".toList ∧
    replaceVarsByValues GoLib.sample [] "a.temp.templatelate".toList
      = .ok "a.temp.templatelate".toList ∧
    newFileName GoLib.sample [] "a.temp.templatelate".toList = .ok "a.template".toList ∧
    templateMarker <:+: "a.template".toList :=
  ⟨⟨"a.temp".toList, "late".toList, rfl⟩, rfl, rfl, ⟨"a".toList, [], rfl⟩⟩

/-- C18, amended: for every template file name and every mapping for which the substitution
of the name succeeds, the output file name computed by `replaceFile` contains no occurrence
of the marker `.template`, provided that in the substituted name no occurrence of the
marker comes right after a non-empty proper prefix of the marker (`.`, `.t`, ...,
`.templat`). -/
theorem C18_marker_removed (L : GoLib) (cfg : GoMap) (fileName newName : Str)
    (hsub : replaceVarsByValues L cfg fileName = .ok newName)
    (hjoin : ∀ k < templateMarker.length, 0 < k →
      ¬ (templateMarker.take k ++ templateMarker) <:+: newName) :
    ∃ out, newFileName L cfg fileName = .ok out ∧ ¬ templateMarker <:+: out := by
  refine ⟨stringsReplaceAll newName templateMarker [], ?_, ?_⟩
  · simp only [newFileName, hsub]
  · exact stringsReplaceAux_no_marker templateMarker (by decide) _ newName (Nat.le_refl _) hjoin

/-- C18, amended, on the file name `{{env}}.conf.template` and the mapping `env: prod`. -/
theorem C18_marker_removed_witness :
    newFileName GoLib.sample [("env".toList, .str "prod".toList)]
        (token "env".toList ++ ".conf.template".toList) = .ok "prod.conf".toList ∧
    ∃ out, newFileName GoLib.sample [("env".toList, .str "prod".toList)]
        (token "env".toList ++ ".conf.template".toList) = .ok out ∧
      ¬ templateMarker <:+: out :=
  ⟨rfl, C18_marker_removed GoLib.sample [("env".toList, .str "prod".toList)]
    (token "env".toList ++ ".conf.template".toList) "prod.conf.template".toList rfl
    (by decide)⟩

theorem mem_get {a : GoMap} {k : Str} {v : Value} (hn : (keys a).Nodup) (h : (k, v) ∈ a) :
    a.get k = some v := by
  induction a with
  | nil => simp at h
  | cons hd tl ih =>
    obtain ⟨k', v'⟩ := hd
    simp only [keys, List.map_cons, List.nodup_cons] at hn
    simp only [GoMap.get]
    rcases List.mem_cons.1 h with h | h
    · simp only [Prod.mk.injEq] at h
      simp [h.1, h.2]
    · have hne : ¬ k' = k := by
        intro e
        apply hn.1
        rw [e]
        exact List.mem_map.2 ⟨(k, v), h, rfl⟩
      rw [if_neg hne]
      exact ih hn.2 h

/-- Two listings of the same entries, with distinct keys, are the same mapping. -/
theorem get_eq_of_perm {a b : GoMap} (hn : (keys a).Nodup) (h : a.Perm b) (k : Str) :
    a.get k = b.get k := by
  have hnb : (keys b).Nodup := (keys_perm h).nodup_iff.1 hn
  cases ha : a.get k with
  | some v => exact (mem_get hnb (h.mem_iff.1 (get_mem ha))).symm
  | none =>
    cases hb : b.get k with
    | none => rfl
    | some v =>
      have := mem_get hn (h.mem_iff.2 (get_mem hb))
      rw [ha] at this
      cases this

/-- C13, as stated, fails: `clashingOrder` has scalar leaves only, and its flattening is
`x.y: false` when the entries are visited as listed, `x.y: true` when they are visited
backwards: the two leaves are written under the same key and the last one visited stays. -/
theorem C13_counterexample :
    scalarLeaves clashingOrder ∧
    convertMapTo1DMap RangeOrder.listed 2 clashingOrder = some [("x.y".toList, .bool false)] ∧
    convertMapTo1DMap RangeOrder.backwards 2 clashingOrder = some [("x.y".toList, .bool true)] :=
  ⟨by decide, rfl, rfl⟩

/-- C13, amended: for every nested configuration whose leaves are all scalars and whose
entries at every depth, inner mappings included, have pairwise distinct dotted paths,
flattening it twice, with any two visiting orders, yields identical mappings: the same
entries, and the same value under every key. -/
theorem C13_order_independent (ro1 ro2 : RangeOrder) (fuel : Nat) (i : GoMap)
    (hfuel : mapDepth i < fuel) (hleaves : scalarLeaves i) (hpaths : (keys (nodes i)).Nodup) :
    ∃ r1 r2, convertMapTo1DMap ro1 fuel i = some r1 ∧ convertMapTo1DMap ro2 fuel i = some r2 ∧
      r1.Perm r2 ∧ ∀ k, r1.get k = r2.get k := by
  obtain ⟨r1, h1, p1⟩ := convertMapTo1DMap_leaves ro1 fuel i hfuel hleaves hpaths
  obtain ⟨r2, h2, p2⟩ := convertMapTo1DMap_leaves ro2 fuel i hfuel hleaves hpaths
  have hn : (keys r1).Nodup := (keys_perm p1).nodup_iff.2
    (hpaths.sublist (keys_sublist (leaves_sublist_nodes i)))
  exact ⟨r1, r2, h1, h2, p1.trans p2.symm, get_eq_of_perm hn (p1.trans p2.symm)⟩

/-- C13, amended, on the configuration `a: {b: {c: 1}, d: {e: 2}}, f: 3`. -/
theorem C13_order_independent_witness :
    mapDepth deepConfig < 3 ∧ scalarLeaves deepConfig ∧ (keys (nodes deepConfig)).Nodup ∧
    ∃ r1 r2, convertMapTo1DMap RangeOrder.listed 3 deepConfig = some r1 ∧
      convertMapTo1DMap RangeOrder.backwards 3 deepConfig = some r2 ∧
      r1.Perm r2 ∧ ∀ k, r1.get k = r2.get k :=
  ⟨by decide, by decide, by decide,
    C13_order_independent RangeOrder.listed RangeOrder.backwards 3 deepConfig
      (by decide) (by decide) (by decide)⟩

theorem tracedStep_none (ro : RangeOrder) (fuel : Nat) (calls : List GoMap) (l : GoMap) :
    (l.foldl (tracedStep ro fuel) (none, calls)).1 = none := by
  induction l with
  | nil => rfl
  | cons hd tl ih => simpa [List.foldl_cons, tracedStep] using ih

theorem tracedStep_not_map (ro : RangeOrder) (fuel : Nat) (t : GoMap) (calls : List GoMap)
    {kv : Str × Value} (hk : kv.2.kind ≠ Kind.map) :
    tracedStep ro fuel (some t, calls) kv = (some t, calls) := by
  unfold tracedStep
  cases h : kv.2.kind <;> first | rfl | exact absurd h hk

/-- The traced loop computes what the second loop computes. -/
theorem tracedLoop_fst_aux (ro : RangeOrder) (fuel : Nat) (l t : GoMap) (calls : List GoMap) :
    (l.foldl (tracedStep ro fuel) (some t, calls)).1 = l.foldlM (secondLoopStep ro fuel) t := by
  induction l generalizing t calls with
  | nil => rfl
  | cons hd tl ih =>
    rw [List.foldl_cons, List.foldlM_cons]
    by_cases hk : hd.2.kind = Kind.map
    · have e1 : tracedStep ro fuel (some t, calls) hd
          = (convertMapTo1DMap ro fuel t, calls ++ [t]) := by
        simp [tracedStep, hk]
      have e2 : secondLoopStep ro fuel t hd = convertMapTo1DMap ro fuel t := by
        simp [secondLoopStep, hk]
      rw [e1, e2]
      cases hc : convertMapTo1DMap ro fuel t with
      | none => rw [tracedStep_none]; rfl
      | some r => rw [ih]; rfl
    · have e1 : tracedStep ro fuel (some t, calls) hd = (some t, calls) :=
        tracedStep_not_map ro fuel t calls hk
      have e2 : secondLoopStep ro fuel t hd = some t := by
        unfold secondLoopStep
        split
        · next h => exact absurd h hk
        · rfl
      rw [e1, e2, ih]
      rfl

theorem tracedLoop_fst (ro : RangeOrder) (fuel : Nat) (i : GoMap) :
    (tracedLoop ro fuel (reduce1D ro i)).1 = convertMapTo1DMap ro (fuel + 1) i := by
  rw [convertMapTo1DMap_succ]
  exact tracedLoop_fst_aux ro fuel _ _ _

/-- The arguments of the nested calls: `tmp` itself, or the result of the call before, in
which no value is a mapping. -/
theorem tracedLoop_calls (ro : RangeOrder) (fuel d : Nat) (tmp : GoMap)
    (hfuel : mapDepth tmp < fuel) (hd : mapDepth tmp < d) (l : GoMap)
    (st : Option GoMap × List GoMap)
    (hcur : ∀ t, st.1 = some t → t = tmp ∨ noMap t)
    (hcalls : ∀ c ∈ st.2, mapDepth c < d) :
    ∀ c ∈ (l.foldl (tracedStep ro fuel) st).2, mapDepth c < d := by
  induction l generalizing st with
  | nil => simpa using hcalls
  | cons hd' tl ih =>
    rw [List.foldl_cons]
    obtain ⟨cur, calls⟩ := st
    cases cur with
    | none =>
      have : tracedStep ro fuel (none, calls) hd' = (none, calls) := rfl
      rw [this]
      exact ih (none, calls) hcur hcalls
    | some t =>
      have ht : mapDepth t < d ∧ mapDepth t < fuel := by
        rcases hcur t rfl with h | h
        · rw [h]; exact ⟨hd, hfuel⟩
        · rw [mapDepth_eq_zero h]; omega
      by_cases hk : hd'.2.kind = Kind.map
      · have e1 : tracedStep ro fuel (some t, calls) hd'
            = (convertMapTo1DMap ro fuel t, calls ++ [t]) := by
          simp [tracedStep, hk]
        rw [e1]
        apply ih
        · intro r hr
          obtain ⟨r', hr', hn⟩ := convertMapTo1DMap_noMap ro fuel t ht.2
          simp only at hr
          rw [hr'] at hr
          cases hr
          exact Or.inr hn
        · intro c hc
          rcases List.mem_append.1 hc with hc | hc
          · exact hcalls c hc
          · simp only [List.mem_singleton] at hc
            rw [hc]; exact ht.1
      · have e1 : tracedStep ro fuel (some t, calls) hd' = (some t, calls) :=
          tracedStep_not_map ro fuel t calls hk
        rw [e1]
        exact ih (some t, calls) hcur hcalls

/-- C14: `convertMapTo1DMap` terminates on every nested mapping: with a bound at least the
nesting depth of the argument the activation returns, and every nested call it makes is on
a mapping whose nesting depth is strictly smaller than that of its argument. -/
theorem C14_nested_calls_decrease (ro : RangeOrder) (fuel : Nat) (i : GoMap)
    (hfuel : mapDepth i ≤ fuel) :
    (∃ r, convertMapTo1DMap ro (fuel + 1) i = some r) ∧
    (tracedLoop ro fuel (reduce1D ro i)).1 = convertMapTo1DMap ro (fuel + 1) i ∧
    ∀ t ∈ nestedCalls ro fuel i, mapDepth t < mapDepth i := by
  refine ⟨?_, tracedLoop_fst ro fuel i, ?_⟩
  · obtain ⟨r, hr, _⟩ := convertMapTo1DMap_noMap ro (fuel + 1) i (by omega)
    exact ⟨r, hr⟩
  · have hdep := mapDepth_reduce1D ro i
    by_cases hn : noMap (reduce1D ro i)
    · -- no value of kind Map is met: no nested call
      have hnone : ∀ (l : GoMap) (st : Option GoMap × List GoMap), noMap l →
          (l.foldl (tracedStep ro fuel) st).2 = st.2 := by
        intro l
        induction l with
        | nil => intro st _; rfl
        | cons hd tl ih =>
          intro st hl
          rw [List.foldl_cons, ih _ (noMap_of_cons hl)]
          have hk := hl hd (List.mem_cons_self _ _)
          obtain ⟨cur, calls⟩ := st
          cases cur with
          | none => rfl
          | some t => rw [tracedStep_not_map ro fuel t calls hk]
      intro t ht
      have := hnone (ro.order (reduce1D ro i)) (some (reduce1D ro i), [])
        (noMap_perm (ro.perm _).symm hn)
      simp only [nestedCalls, tracedLoop] at ht
      rw [this] at ht
      simp at ht
    · have h0 : mapDepth (reduce1D ro i) ≠ 0 := fun h' => hn (noMap_of_mapDepth h')
      exact tracedLoop_calls ro fuel (mapDepth i) (reduce1D ro i) (by omega) (by omega)
        (ro.order (reduce1D ro i)) (some (reduce1D ro i), [])
        (fun t ht => Or.inl (by simpa using ht.symm)) (by simp)

/-- C14 on the configuration `a: {b: {c: 1}, d: {e: 2}}, f: 3`: there are two nested calls,
the first on a mapping of depth 1, the second on a mapping of depth 0. -/
theorem C14_nested_calls_decrease_witness :
    mapDepth deepConfig ≤ 2 ∧ mapDepth deepConfig = 2 ∧
    (nestedCalls RangeOrder.listed 2 deepConfig).map mapDepth = [1, 0] ∧
    ((∃ r, convertMapTo1DMap RangeOrder.listed (2 + 1) deepConfig = some r) ∧
      (tracedLoop RangeOrder.listed 2 (reduce1D RangeOrder.listed deepConfig)).1
        = convertMapTo1DMap RangeOrder.listed (2 + 1) deepConfig ∧
      ∀ t ∈ nestedCalls RangeOrder.listed 2 deepConfig, mapDepth t < mapDepth deepConfig) :=
  ⟨by decide, by decide, by decide,
    C14_nested_calls_decrease RangeOrder.listed 2 deepConfig (by decide)⟩

theorem keys_set_nodup {t : GoMap} (k : Str) (v : Value) (h : (keys t).Nodup) :
    (keys (GoMap.set t k v)).Nodup := by
  induction t with
  | nil => simp [GoMap.set, keys]
  | cons hd tl ih =>
    obtain ⟨k', v'⟩ := hd
    simp only [keys, List.map_cons, List.nodup_cons] at h
    simp only [GoMap.set]
    split
    · next hk =>
      subst hk
      simpa [keys] using h
    · next hk =>
      simp only [keys, List.map_cons, List.nodup_cons]
      refine ⟨?_, ih h.2⟩
      intro hmem
      obtain ⟨x, hx, hxk⟩ := List.mem_map.1 hmem
      rcases mem_set hx with hx | hx
      · exact h.1 (List.mem_map.2 ⟨x, hx, hxk⟩)
      · subst hx; exact hk hxk.symm

theorem foldl_set_nodup (k : Str) (l tmp : GoMap) (h : (keys tmp).Nodup) :
    (keys (l.foldl (fun t kv1 => GoMap.set t (dotted k kv1.1) kv1.2) tmp)).Nodup := by
  induction l generalizing tmp with
  | nil => exact h
  | cons hd tl ih => exact ih _ (keys_set_nodup _ _ h)

theorem reduceEntry_nodup (ro : RangeOrder) (tmp : GoMap) (kv : Str × Value)
    (h : (keys tmp).Nodup) : (keys (reduceEntry ro tmp kv)).Nodup := by
  obtain ⟨k, v⟩ := kv
  cases v with
  | map m => exact foldl_set_nodup k _ tmp h
  | null => exact h
  | seq items => exact h
  | bool b => exact keys_set_nodup _ _ h
  | int b => exact keys_set_nodup _ _ h
  | float32 b => exact keys_set_nodup _ _ h
  | float64 b => exact keys_set_nodup _ _ h
  | str b => exact keys_set_nodup _ _ h

/-- The map built by the first loop has one entry per key. -/
theorem reduce1D_nodup (ro : RangeOrder) (i : GoMap) : (keys (reduce1D ro i)).Nodup := by
  have : ∀ (l tmp : GoMap), (keys tmp).Nodup → (keys (l.foldl (reduceEntry ro) tmp)).Nodup := by
    intro l
    induction l with
    | nil => intro tmp h; exact h
    | cons hd tl ih => intro tmp h; exact ih _ (reduceEntry_nodup ro tmp hd h)
  exact this _ [] (by simp [keys])

theorem scalarLeaves_iff (i : GoMap) : scalarLeaves i ↔ ∀ kv ∈ i, scalarEntry kv := by
  simp only [scalarLeaves, scalarEntry, leaves_eq_flatMap, List.mem_flatMap]
  constructor
  · intro h kv hkv x hx; exact h x ⟨kv, hkv, hx⟩
  · rintro h x ⟨kv, hkv, hx⟩; exact h kv hkv x hx

theorem scalarEntry_rekey (k : Str) {m : GoMap} (h : scalarEntry (k, Value.map m))
    {x : Str × Value} (hx : x ∈ m) : scalarEntry (rekey k x) := by
  intro y hy
  rw [leavesOf_rekey, List.mem_map] at hy
  obtain ⟨z, hz, rfl⟩ := hy
  apply h (rekey k z)
  rw [leavesOf_map, leaves_eq_flatMap]
  exact List.mem_map.2 ⟨z, List.mem_flatMap.2 ⟨x, hx, hz⟩, rfl⟩

theorem scalarEntry_of_isScalar {kv : Str × Value} (h : kv.2.isScalar = true) :
    scalarEntry kv := by
  intro x hx
  rw [leavesOf_of_not_map (kind_ne_map_of_isScalar h), List.mem_singleton] at hx
  exact hx ▸ h

theorem foldl_set_scalarEntry (k : Str) (l tmp : GoMap)
    (hl : ∀ x ∈ l, scalarEntry (rekey k x)) (ht : ∀ x ∈ tmp, scalarEntry x) :
    ∀ x ∈ l.foldl (fun t kv1 => GoMap.set t (dotted k kv1.1) kv1.2) tmp, scalarEntry x := by
  induction l generalizing tmp with
  | nil => simpa using ht
  | cons hd tl ih =>
    simp only [List.foldl_cons]
    apply ih
    · intro x hx; exact hl x (List.mem_cons_of_mem _ hx)
    · intro x hx
      rcases mem_set hx with hx | hx
      · exact ht x hx
      · subst hx; exact hl hd (List.mem_cons_self _ _)

theorem reduceEntry_scalarEntry (ro : RangeOrder) (tmp : GoMap) (kv : Str × Value)
    (hkv : scalarEntry kv) (ht : ∀ x ∈ tmp, scalarEntry x) :
    ∀ x ∈ reduceEntry ro tmp kv, scalarEntry x := by
  obtain ⟨k, v⟩ := kv
  have hset : ∀ w : Value, w.isScalar = true →
      ∀ x ∈ GoMap.set tmp k w, scalarEntry x := by
    intro w hw x hx
    rcases mem_set hx with hx | hx
    · exact ht x hx
    · subst hx; exact scalarEntry_of_isScalar hw
  cases v with
  | map m =>
    exact foldl_set_scalarEntry k _ tmp
      (fun x hx => scalarEntry_rekey k hkv ((ro.perm m).mem_iff.1 hx)) ht
  | null => exact ht
  | seq items => exact ht
  | bool b => exact hset _ rfl
  | int b => exact hset _ rfl
  | float32 b => exact hset _ rfl
  | float64 b => exact hset _ rfl
  | str b => exact hset _ rfl

/-- A pass of the first loop keeps the leaves scalar, clash of keys or not. -/
theorem scalarLeaves_reduce1D (ro : RangeOrder) (i : GoMap) (h : scalarLeaves i) :
    scalarLeaves (reduce1D ro i) := by
  rw [scalarLeaves_iff] at h ⊢
  have : ∀ (l tmp : GoMap), (∀ x ∈ l, scalarEntry x) → (∀ x ∈ tmp, scalarEntry x) →
      ∀ x ∈ l.foldl (reduceEntry ro) tmp, scalarEntry x := by
    intro l
    induction l with
    | nil => intro tmp _ ht; simpa using ht
    | cons hd tl ih =>
      intro tmp hl ht
      simp only [List.foldl_cons]
      exact ih _ (fun x hx => hl x (List.mem_cons_of_mem _ hx))
        (reduceEntry_scalarEntry ro tmp hd (hl hd (List.mem_cons_self _ _)) ht)
  exact this _ [] (fun x hx => h x ((ro.perm i).mem_iff.1 hx)) (by simp)

theorem scalars_of_noMap {t : GoMap} (hs : scalarLeaves t) (hn : noMap t) :
    ∀ x ∈ t, x.2.isScalar = true := by
  intro x hx
  exact hs x (by rw [leaves_of_noMap hn]; exact hx)

/-- The flattener on a mapping whose leaves are scalars, clash of keys or not: the result
has scalar values and one entry per key. -/
theorem convertMapTo1DMap_scalars (ro : RangeOrder) (fuel : Nat) (i : GoMap)
    (hd : mapDepth i < fuel) (hs : scalarLeaves i) :
    ∃ r, convertMapTo1DMap ro fuel i = some r ∧ (∀ x ∈ r, x.2.isScalar = true) ∧
      (keys r).Nodup := by
  induction fuel generalizing i with
  | zero => omega
  | succ fuel ih =>
    rw [convertMapTo1DMap_succ]
    have hdep := mapDepth_reduce1D ro i
    have hs' := scalarLeaves_reduce1D ro i hs
    have hn' := reduce1D_nodup ro i
    obtain ⟨r, hr, hcase⟩ := secondLoop_inv ro fuel
      (fun j => mapDepth j < fuel ∧ scalarLeaves j ∧ (keys j).Nodup)
      (fun j hj => by
        obtain ⟨hj1, hj2, _⟩ := hj
        obtain ⟨r, hr, hsc, hnd⟩ := ih j hj1 hj2
        have hnm : noMap r := noMap_of_scalars hsc
        have h0 := mapDepth_eq_zero hnm
        refine ⟨r, hr, ⟨by omega, ?_, hnd⟩, hnm⟩
        intro x hx
        rw [leaves_of_noMap hnm] at hx
        exact hsc x hx)
      (ro.order (reduce1D ro i)) (reduce1D ro i)
      (fun hnl => by
        have h1 : ¬ noMap (reduce1D ro i) := fun h' => hnl (noMap_perm (ro.perm _).symm h')
        have h2 : mapDepth (reduce1D ro i) ≠ 0 := fun h' => h1 (noMap_of_mapDepth h')
        exact ⟨by omega, hs', hn'⟩)
    refine ⟨r, hr, ?_⟩
    rcases hcase with ⟨h1, h2⟩ | ⟨h1, h2⟩
    · rw [h1]
      exact ⟨scalars_of_noMap hs' (noMap_perm (ro.perm _) h2), hn'⟩
    · exact ⟨scalars_of_noMap h1.2.1 h2, h1.2.2⟩

/-- The flattener is the identity on a mapping whose values are all scalars. -/
theorem convertMapTo1DMap_flat (ro : RangeOrder) (fuel : Nat) (i : GoMap) (hfuel : 0 < fuel)
    (hsc : ∀ x ∈ i, x.2.isScalar = true) (hkeys : (keys i).Nodup) :
    ∃ r, convertMapTo1DMap ro fuel i = some r ∧ r.Perm i ∧ ∀ k, r.get k = i.get k := by
  have hnm : noMap i := noMap_of_scalars hsc
  obtain ⟨r, hr, hperm⟩ := convertMapTo1DMap_leaves ro fuel i
    (by rw [mapDepth_eq_zero hnm]; exact hfuel)
    (by intro x hx; rw [leaves_of_noMap hnm] at hx; exact hsc x hx)
    (by rw [nodes_of_noMap hnm]; exact hkeys)
  rw [leaves_of_noMap hnm] at hperm
  exact ⟨r, hr, hperm, fun k => (get_eq_of_perm hkeys hperm.symm k).symm⟩

/-- C19: flattening is idempotent on the configurations whose leaves are all scalars:
flattening the result of `convertMapTo1DMap` again, with any visiting order, gives the same
mapping (the same entries, the same value under every key); and `convertMapTo1DMap` gives
back every mapping whose values are all scalars, whatever its keys (a Go map has one entry
per key). -/
theorem C19_idempotent (ro1 ro2 : RangeOrder) (fuel : Nat) (c : GoMap)
    (hfuel : mapDepth c < fuel) (hleaves : scalarLeaves c) :
    (∃ r, convertMapTo1DMap ro1 fuel c = some r ∧
      ∃ r', convertMapTo1DMap ro2 fuel r = some r' ∧ r'.Perm r ∧ ∀ k, r'.get k = r.get k) ∧
    ∀ i : GoMap, (∀ x ∈ i, x.2.isScalar = true) → (keys i).Nodup →
      ∃ r, convertMapTo1DMap ro1 fuel i = some r ∧ r.Perm i ∧ ∀ k, r.get k = i.get k := by
  refine ⟨?_, fun i hsc hkeys => convertMapTo1DMap_flat ro1 fuel i (by omega) hsc hkeys⟩
  obtain ⟨r, hr, hsc, hnd⟩ := convertMapTo1DMap_scalars ro1 fuel c hfuel hleaves
  obtain ⟨r', hr', hperm, hget⟩ := convertMapTo1DMap_flat ro2 fuel r (by omega) hsc hnd
  exact ⟨r, hr, r', hr', hperm, hget⟩

/-- C19 on the configuration `x.y: true, x: {y: false}`, whose two leaves clash. -/
theorem C19_idempotent_witness :
    mapDepth clashingOrder < 2 ∧ scalarLeaves clashingOrder ∧
    ((∃ r, convertMapTo1DMap RangeOrder.listed 2 clashingOrder = some r ∧
      ∃ r', convertMapTo1DMap RangeOrder.backwards 2 r = some r' ∧ r'.Perm r ∧
        ∀ k, r'.get k = r.get k) ∧
    ∀ i : GoMap, (∀ x ∈ i, x.2.isScalar = true) → (keys i).Nodup →
      ∃ r, convertMapTo1DMap RangeOrder.listed 2 i = some r ∧ r.Perm i ∧
        ∀ k, r.get k = i.get k) :=
  ⟨by decide, by decide,
    C19_idempotent RangeOrder.listed RangeOrder.backwards 2 clashingOrder
      (by decide) (by decide)⟩

/-- C12: for every non-empty identifier `x` made of letters and digits, every mapping where
`x` has a value `v` that is a Boolean, an Integer or a String free of `$`, `{`, `}`, and
every text made of occurrences of `{{x}}` separated by texts without braces (two or more
occurrences when there is a separator), `replaceVarsByValues` replaces every occurrence
by the string form of `v` (`true` or `false`, the decimal string, the string itself) and
keeps the separators. -/
theorem C12_every_occurrence (L : GoLib) (cfg : GoMap) (x : Str) (v : Value) (seps : List Str)
    (hne : x ≠ []) (hx : ∀ c ∈ x, nameChar L c = true ∧ c ≠ '_')
    (hget : cfg.get x = some v)
    (hv : (∃ b, v = .bool b) ∨ (∃ n, v = .int n) ∨
      ∃ s, v = .str s ∧ ∀ c ∈ s, c ≠ '$' ∧ c ≠ '{' ∧ c ≠ '}')
    (hfree : ∀ sep ∈ seps, ∀ c ∈ sep, c ≠ '{' ∧ c ≠ '}') :
    replaceVarsByValues L cfg (token x ++ seps.flatMap (fun sep => sep ++ token x))
      = .ok (canonicalForm v ++ seps.flatMap (fun sep => sep ++ canonicalForm v)) := by
  obtain ⟨hs, hplain⟩ : convertTypeToString L v = .ok (canonicalForm v) ∧
      ∀ c ∈ canonicalForm v, c ≠ '$' ∧ c ≠ '{' ∧ c ≠ '}' := by
    rcases hv with ⟨b, rfl⟩ | ⟨n, rfl⟩ | ⟨s, rfl, hs⟩
    · cases b
      · exact ⟨rfl, by decide⟩
      · exact ⟨rfl, by decide⟩
    · exact ⟨rfl, formatInt_plain n⟩
    · exact ⟨rfl, hs⟩
  have hident : ∀ c ∈ x, identChar c = true := fun c hc => identChar_of_nameChar L (hx c hc).1
  have hclean := clean_repeatedToken x seps hne hident (fun sep hsep c hc => (hfree sep hsep c hc).1)
  have hsegs := segments_render _ hclean
  have hsub : substitutable L cfg x :=
    ⟨fun c hc => regexMeta_of_nameChar L (hx c hc).1, v, canonicalForm v, hget, hs,
      fun c hc => ⟨(hplain c hc).1, (hplain c hc).2.1⟩⟩
  have h := replaceVarsByValues_substituteAll L cfg (render (repeatedToken x seps))
    (by
      rw [hsegs]
      intro id hid
      rw [tokenIds_repeatedToken x seps id hid]
      exact hsub)
    (by
      rw [hsegs]
      intro c hc
      exact hclean _ hc)
  rw [hsegs, substituteAll_repeatedToken, stringForm_eq L hget hs, render_repeatedToken] at h
  exact h

/-- C12 on the text `{{x}} and {{x}}` with `x` the String `1`: the result is `1 and 1`; with
`x` the Integer `-12`: the result is `-12 and -12`; with `x` the Boolean true: the result is
`true and true`. -/
theorem C12_every_occurrence_witness :
    replaceVarsByValues GoLib.sample [("x".toList, .str "1".toList)]
        (token "x".toList ++ " and ".toList ++ token "x".toList) = .ok "1 and 1".toList ∧
    replaceVarsByValues GoLib.sample [("x".toList, .int (-12))]
        (token "x".toList ++ " and ".toList ++ token "x".toList) = .ok "-12 and -12".toList ∧
    replaceVarsByValues GoLib.sample [("x".toList, .bool true)]
        (token "x".toList ++ " and ".toList ++ token "x".toList) = .ok "true and true".toList :=
  ⟨C12_every_occurrence GoLib.sample [("x".toList, .str "1".toList)] "x".toList
      (.str "1".toList) [" and ".toList] (by decide) (by decide) rfl
      (Or.inr (Or.inr ⟨"1".toList, rfl, by decide⟩)) (by decide),
    C12_every_occurrence GoLib.sample [("x".toList, .int (-12))] "x".toList
      (.int (-12)) [" and ".toList] (by decide) (by decide) rfl
      (Or.inr (Or.inl ⟨-12, rfl⟩)) (by decide),
    C12_every_occurrence GoLib.sample [("x".toList, .bool true)] "x".toList
      (.bool true) [" and ".toList] (by decide) (by decide) rfl
      (Or.inl ⟨true, rfl⟩) (by decide)⟩

theorem segmentsAux_fuel (n : Nat) : ∀ (m : Nat) (s : Str), s.length ≤ n → s.length ≤ m →
    segmentsAux n s = segmentsAux m s := by
  induction n with
  | zero =>
    intro m s hn _
    have : s = [] := List.length_eq_zero.1 (by omega)
    subst this
    cases m <;> rfl
  | succ n ih =>
    intro m s hn hm
    cases s with
    | nil => cases m <;> rfl
    | cons c t =>
      obtain ⟨m', rfl⟩ : ∃ m', m = m' + 1 := ⟨m - 1, by simp at hm; omega⟩
      simp only [List.length_cons] at hn hm
      simp only [segmentsAux]
      cases hmp : matchPlaceholder (c :: t) with
      | none => simp only; rw [ih m' t (by omega) (by omega)]
      | some p =>
        obtain ⟨id, rest⟩ := p
        have hlen : rest.length ≤ t.length := by
          have := congrArg List.length (matchPlaceholder_some hmp).1
          simp [token] at this
          omega
        simp only
        rw [ih m' rest (by omega) (by omega)]

theorem tokenIds_append (a b : List Seg) : tokenIds (a ++ b) = tokenIds a ++ tokenIds b := by
  induction a with
  | nil => rfl
  | cons hd tl ih => cases hd <;> simp [tokenIds, ih]

/-- Two tokens of a text do not overlap: a token that starts inside another one would need
a `{` where the other has its identifier or its closing braces. -/
theorem token_no_overlap {id id' a e r post : Str} (hsplit : token id' = a ++ e)
    (ha : a ≠ []) (he : e ≠ []) (hne : id' ≠ []) (hid : ∀ c ∈ id', identChar c = true)
    (hstart : e ++ r = token id ++ post) : False := by
  have hnot : ∀ c ∈ id' ++ ['}', '}'], c ≠ '{' := by
    intro c hc
    rcases List.mem_append.1 hc with hc | hc
    · exact identChar_not_open (hid c hc)
    · simp only [List.mem_cons, List.mem_singleton, List.not_mem_nil, or_false] at hc
      rcases hc with hc | hc <;> (subst hc; decide)
  cases e with
  | nil => exact he rfl
  | cons y e1 =>
    have hy : y = '{' := by
      have := congrArg List.head? hstart
      simpa [token] using this
    cases a with
    | nil => exact ha rfl
    | cons x a1 =>
      simp only [token, List.cons_append, List.cons.injEq] at hsplit
      obtain ⟨_, hsplit⟩ := hsplit
      cases a1 with
      | nil =>
        simp only [List.nil_append, List.cons.injEq] at hsplit
        obtain ⟨_, he1⟩ := hsplit
        cases id' with
        | nil => exact hne rfl
        | cons c cs =>
          have h2 : (e1 ++ r).head? = some '{' := by
            have := congrArg (fun l => l.tail.head?) hstart
            simpa [token] using this
          rw [← he1] at h2
          simp only [List.cons_append, List.head?_cons, Option.some.injEq] at h2
          exact identChar_not_open (hid c (List.mem_cons_self _ _)) h2
      | cons z a2 =>
        simp only [List.cons_append, List.cons.injEq] at hsplit
        obtain ⟨_, hrest⟩ := hsplit
        have hmem : y ∈ id' ++ ['}', '}'] := by
          rw [hrest]
          exact List.mem_append_right _ (List.mem_cons_self _ _)
        exact hnot y hmem hy

theorem matchPlaceholder_append {p id' rest : Str} (X : Str)
    (h : matchPlaceholder p = some (id', rest)) :
    matchPlaceholder (p ++ X) = some (id', rest ++ X) := by
  obtain ⟨hp, hne, hid⟩ := matchPlaceholder_some h
  rw [hp, List.append_assoc]
  exact matchPlaceholder_token id' (rest ++ X) hne hid

theorem matchPlaceholder_append_none {p : Str} (id q : Str) (hp : p ≠ [])
    (h : matchPlaceholder p = none) :
    matchPlaceholder (p ++ (token id ++ q)) = none := by
  cases hm : matchPlaceholder (p ++ (token id ++ q)) with
  | none => rfl
  | some res =>
    exfalso
    obtain ⟨id', r⟩ := res
    obtain ⟨heq, hne', hid'⟩ := matchPlaceholder_some hm
    rcases List.append_eq_append_iff.1 heq with ⟨a', h1, h2⟩ | ⟨c', h1, h2⟩
    · by_cases ha' : a' = []
      · subst ha'
        rw [List.append_nil] at h1
        have := matchPlaceholder_token id' [] hne' hid'
        rw [List.append_nil, h1, h] at this
        cases this
      · exact token_no_overlap h1 hp ha' hne' hid' h2.symm
    · have := matchPlaceholder_token id' c' hne' hid'
      rw [← h1, h] at this
      cases this

/-- The cut of a text around a token: the cut of what is before it, the token, the cut of
what is after it. -/
theorem segmentsAux_append_token (id q : Str) (hne : id ≠ [])
    (hid : ∀ c ∈ id, identChar c = true) (n : Nat) :
    ∀ p : Str, (p ++ (token id ++ q)).length ≤ n →
      segmentsAux n (p ++ (token id ++ q))
        = segmentsAux p.length p ++ Seg.tok id :: segmentsAux q.length q := by
  induction n with
  | zero =>
    intro p h
    simp [token] at h
  | succ n ih =>
    intro p h
    cases p with
    | nil =>
      have hm := matchPlaceholder_token id q hne hid
      have e : token id ++ q = '{' :: ('{' :: (id ++ ['}', '}']) ++ q) := rfl
      have hq : q.length ≤ n := by
        simp [token] at h
        omega
      rw [List.nil_append]
      rw [e] at hm ⊢
      simp only [segmentsAux, hm, List.length_nil, List.nil_append]
      rw [segmentsAux_fuel n q.length q hq (Nat.le_refl _)]
    | cons c p' =>
      have hlen : (p' ++ (token id ++ q)).length ≤ n := by
        simp only [List.cons_append, List.length_cons] at h
        omega
      cases hmp : matchPlaceholder (c :: p') with
      | none =>
        have hctx := matchPlaceholder_append_none id q (List.cons_ne_nil c p') hmp
        rw [List.cons_append] at hctx ⊢
        simp only [segmentsAux, hctx, List.length_cons, hmp, List.cons_append]
        rw [ih p' hlen]
      | some res =>
        obtain ⟨id', rest⟩ := res
        have hctx := matchPlaceholder_append (token id ++ q) hmp
        have hrest : rest.length ≤ p'.length := by
          have := congrArg List.length (matchPlaceholder_some hmp).1
          simp [token] at this
          omega
        have hlen' : (rest ++ (token id ++ q)).length ≤ n := by
          simp only [List.length_append] at hlen ⊢
          omega
        rw [List.cons_append] at hctx ⊢
        simp only [segmentsAux, hctx, List.length_cons, hmp, List.cons_append]
        rw [ih rest hlen', segmentsAux_fuel p'.length rest.length rest hrest (Nat.le_refl _)]

/-- A token of the text is a match of the pattern: its identifier is in the list of the
matched identifiers, after those matched before it. -/
theorem tokenIds_segments_split (p id q : Str) (hne : id ≠ [])
    (hid : ∀ c ∈ id, identChar c = true) :
    tokenIds (segments (p ++ token id ++ q))
      = tokenIds (segments p) ++ id :: tokenIds (segments q) := by
  have := segmentsAux_append_token id q hne hid _ p (Nat.le_refl _)
  rw [segments, List.append_assoc, this, tokenIds_append]
  rfl

/-- A match of the pattern is a token of the text. -/
theorem segmentsAux_tok_substring (n : Nat) : ∀ (s x : Str), Seg.tok x ∈ segmentsAux n s →
    ∃ p1 p2, s = p1 ++ token x ++ p2 := by
  induction n with
  | zero => intro s x h; simp [segmentsAux] at h
  | succ n ih =>
    intro s x h
    cases s with
    | nil => simp [segmentsAux] at h
    | cons c t =>
      simp only [segmentsAux] at h
      cases hm : matchPlaceholder (c :: t) with
      | none =>
        rw [hm] at h
        simp only [List.mem_cons] at h
        rcases h with h | h
        · cases h
        · obtain ⟨p1, p2, e⟩ := ih t x h
          exact ⟨c :: p1, p2, by rw [e]; rfl⟩
      | some res =>
        obtain ⟨id', rest⟩ := res
        rw [hm] at h
        simp only [List.mem_cons, Seg.tok.injEq] at h
        rcases h with h | h
        · subst h
          exact ⟨[], rest, by rw [(matchPlaceholder_some hm).1]; rfl⟩
        · obtain ⟨p1, p2, e⟩ := ih rest x h
          exact ⟨token id' ++ p1, p2, by
            rw [(matchPlaceholder_some hm).1, e]; simp⟩

theorem identChar_of_four {id : Str}
    (h : ∀ c ∈ id, c ≠ '{' ∧ c ≠ '}' ∧ c ≠ ';' ∧ c ≠ '^') : ∀ c ∈ id, identChar c = true := by
  intro c hc
  obtain ⟨h1, h2, h3, h4⟩ := h c hc
  simp [identChar, h1, h2, h3, h4]

theorem four_of_identChar {c : Char} (h : identChar c = true) :
    c ≠ '{' ∧ c ≠ '}' ∧ c ≠ ';' ∧ c ≠ '^' := by
  refine ⟨?_, ?_, ?_, ?_⟩ <;> (intro e; subst e; exact absurd h (by decide))

/-- C3, amended: for every mapping and every text, if the text contains a placeholder token
`{{id}}` (`id` not empty, made of characters other than `{`, `}`, `;`, `^`) whose
identifier is not a key of the mapping, `replaceVarsByValues` fails and returns no text; the
failure names that identifier when it is the leftmost one that is not a key and the
identifier of every such token before it has a scalar value and no regular-expression
metacharacter other than the dot. -/
theorem C3_unresolved_variable (L : GoLib) (cfg : GoMap) (body p id q : Str)
    (hbody : body = p ++ token id ++ q) (hne : id ≠ [])
    (hchars : ∀ c ∈ id, c ≠ '{' ∧ c ≠ '}' ∧ c ≠ ';' ∧ c ≠ '^')
    (hget : cfg.get id = none) :
    (∃ e, replaceVarsByValues L cfg body = .error e) ∧
    ((∀ p1 x p2, p = p1 ++ token x ++ p2 → x ≠ [] →
        (∀ c ∈ x, c ≠ '{' ∧ c ≠ '}' ∧ c ≠ ';' ∧ c ≠ '^') →
        plainIdent x = true ∧ ∃ v, cfg.get x = some v ∧ v.isScalar = true) →
      replaceVarsByValues L cfg body = .error (Panic.variableNotFound id)) := by
  have hid := identChar_of_four hchars
  have hsplit := tokenIds_segments_split p id q hne hid
  rw [← hbody] at hsplit
  refine ⟨?_, ?_⟩
  · rw [replaceVarsByValues_eq]
    exact foldlM_replaceVar_absent L cfg _ (tokenIds_not_open body)
      ⟨id, by rw [hsplit]; simp, hget⟩ body
  · intro hbefore
    rw [replaceVarsByValues_eq, hsplit]
    apply foldlM_replaceVar_first_absent L cfg _ id _ (fun c hc => (hchars c hc).1) hget
    intro x hx
    have htok := mem_tokenIds.1 hx
    obtain ⟨p1, p2, e⟩ := segmentsAux_tok_substring _ p x htok
    obtain ⟨hxne, hxid⟩ := segmentsAux_tok _ _ x htok
    exact hbefore p1 x p2 e hxne (fun c hc => four_of_identChar (hxid c hc))

/-- C3, amended, on the text `{{a.b}} {{missing}}` and the mapping `a.b: 1`. -/
theorem C3_unresolved_variable_witness :
    GoMap.get [("a.b".toList, Value.int 1)] "missing".toList = none ∧
    replaceVarsByValues GoLib.sample [("a.b".toList, Value.int 1)]
        ((token "a.b".toList ++ [' ']) ++ token "missing".toList ++ [])
      = .error (Panic.variableNotFound "missing".toList) :=
  ⟨rfl,
    (C3_unresolved_variable GoLib.sample [("a.b".toList, Value.int 1)]
      ((token "a.b".toList ++ [' ']) ++ token "missing".toList ++ [])
      (token "a.b".toList ++ [' ']) "missing".toList [] rfl (by decide) (by decide) rfl).2
      (by
        intro p1 x p2 hp hxne hxch
        have hmem : x ∈ tokenIds (segments (p1 ++ token x ++ p2)) := by
          rw [tokenIds_segments_split p1 x p2 hxne (identChar_of_four hxch)]
          simp
        rw [← hp] at hmem
        have hx : x = "a.b".toList := by
          have hlist : tokenIds (segments (token "a.b".toList ++ [' '])) = ["a.b".toList] := rfl
          rw [hlist] at hmem
          simpa using hmem
        subst hx
        exact ⟨rfl, Value.int 1, rfl, rfl⟩)⟩

end ConfigReplacer
